import Mathlib

/-!
Verification of the voicepages-server audio pipeline.

This file gives a shallow embedding of the audio-processing core of the
repository (src/pipeline/audio_generator.py and src/pipeline/voice_assigner.py)
and proves or refutes the specified properties.

Byte buffers are modelled as `List Nat` (one entry per byte); text is
modelled as `List Char`.  Python dictionaries are modelled as association
lists with insertion-order semantics (`dinsert` reproduces assignment into
an existing key in place, new keys are appended, exactly like CPython
dicts preserve insertion order).
-/

/-! ## Little-endian integer helpers (struct.pack / struct.unpack '<I') -/

/-- `struct.unpack('<I', bytes)[0]`: little-endian 32-bit read.
Out-of-range access yields 0 (the chunk walk only reads full 4-byte slices). -/
def leU32 (l : List Nat) : Nat :=
  l.getD 0 0 + 256 * (l.getD 1 0 + 256 * (l.getD 2 0 + 256 * l.getD 3 0))

/-- `struct.pack('<I', n)`: little-endian 32-bit write (n < 2^32 in all real uses). -/
def u32le (n : Nat) : List Nat :=
  [n % 256, n / 256 % 256, n / 65536 % 256, n / 16777216 % 256]

/-- `struct.pack('<H', n)`: little-endian 16-bit write. -/
def u16le (n : Nat) : List Nat :=
  [n % 256, n / 256 % 256]

/-- ASCII bytes of the tag `RIFF`. -/
def riffTag : List Nat := [82, 73, 70, 70]

/-- ASCII bytes of the tag `WAVE`. -/
def waveTag : List Nat := [87, 65, 86, 69]

/-- ASCII bytes of the tag `fmt `. -/
def fmtTag : List Nat := [102, 109, 116, 32]

/-- ASCII bytes of the tag `data`. -/
def dataTag : List Nat := [100, 97, 116, 97]

/-! ## AudioGenerator._clean_wav (src/pipeline/audio_generator.py lines 264-326) -/

/-- One state of the RIFF chunk walk: the last `fmt ` chunk body and the last
`data` chunk body seen so far.  Fuel-indexed version of the
`while pos < len(wav_bytes) - 8` loop of `_clean_wav`; the loop body reads the
4-byte chunk id at `pos`, the little-endian size at `pos+4`, slices the chunk
body (Python slices clamp), and advances by `8 + size` plus one pad byte when
the size is odd.  Here `s` is the suffix of the buffer starting at `pos`, so
the loop guard `pos < len - 8` becomes `8 < s.length`. -/
def chunkWalkF : Nat → List Nat → Option (List Nat) → Option (List Nat) →
    Option (List Nat) × Option (List Nat)
  | 0, _, fmtc, datac => (fmtc, datac)
  | fuel + 1, s, fmtc, datac =>
    if 8 < s.length then
      let cid := s.take 4
      let size := leU32 ((s.drop 4).take 4)
      let cdata := (s.drop 8).take size
      let fmtc' := if cid = fmtTag then some cdata else fmtc
      let datac' := if cid = dataTag then some cdata else datac
      let adv := 8 + size + (if size % 2 = 1 then 1 else 0)
      chunkWalkF fuel (s.drop adv) fmtc' datac'
    else (fmtc, datac)

/-- The chunk walk with enough fuel to terminate (every step consumes at
least 8 bytes of the suffix, so `s.length` steps always suffice). -/
def chunkWalk (s : List Nat) (fmtc datac : Option (List Nat)) :
    Option (List Nat) × Option (List Nat) :=
  chunkWalkF s.length s fmtc datac

/-- The canonical two-chunk RIFF/WAVE buffer `_clean_wav` re-emits:
`RIFF` + recomputed riff size + `WAVE` + `fmt ` chunk + `data` chunk. -/
def canonicalWav (fmtc datac : List Nat) : List Nat :=
  riffTag ++ u32le (4 + 8 + fmtc.length + 8 + datac.length) ++ waveTag ++
  fmtTag ++ u32le fmtc.length ++ fmtc ++
  dataTag ++ u32le datac.length ++ datac

/-- `AudioGenerator._clean_wav`: strip non-standard chunks from a WAV buffer.
Buffers shorter than 44 bytes, buffers without the `RIFF`/`WAVE` magic, and
buffers in which the chunk walk locates no `fmt ` or no `data` chunk are
returned unchanged. -/
def cleanWav (x : List Nat) : List Nat :=
  if x.length < 44 then x
  else if ¬ (x.take 4 = riffTag ∧ (x.drop 8).take 4 = waveTag) then x
  else
    match chunkWalk (x.drop 12) none none with
    | (some fmtc, some datac) => canonicalWav fmtc datac
    | _ => x

/-! ## AudioGenerator.concatenate_audio (src/pipeline/audio_generator.py lines 359-398) -/

/-- Sample rate read from bytes 24..27 of the 44-byte header slice of a buffer
(`header = audio_segments[0][:44]; struct.unpack('<I', header[24:28])`).
When the buffer is shorter than 28 bytes the Python `struct.unpack` raises
`struct.error`; this total model reads missing bytes as 0 instead, so every
theorem about `concatenateAudio` assumes a first buffer of at least 28
bytes, keeping its statement inside the program's non-raising domain. -/
def sampleRateOf (b : List Nat) : Nat :=
  leU32 (((b.take 44).drop 24).take 4)

/-- The 44-byte canonical 16-bit mono PCM header written by
`concatenate_audio` (and `_generate_placeholder_audio`). -/
def wavOutHeader (sampleRate numSamples : Nat) : List Nat :=
  riffTag ++ u32le (36 + numSamples * 2) ++ waveTag ++
  fmtTag ++ u32le 16 ++ u16le 1 ++ u16le 1 ++
  u32le sampleRate ++ u32le (sampleRate * 2) ++ u16le 2 ++ u16le 16 ++
  dataTag ++ u32le (numSamples * 2)

/-- The `arrays` list built by the loop of `concatenate_audio`:
for each segment longer than 44 bytes its post-header bytes are appended,
followed by the pause buffer unless the segment is the last one.
`numpy.int16` sample arrays are modelled at byte level: on even-length
payloads of 16-bit WAVs, `np.frombuffer`, `np.concatenate` and `tobytes`
compose to plain byte concatenation.  On an odd-length payload the Python
`np.frombuffer` raises `ValueError` while this total model keeps the bytes,
so every theorem about `concatenateAudio` assumes even payloads for the
buffers it keeps, staying inside the program's non-raising domain. -/
def buildArrays : List (List Nat) → List Nat → List (List Nat)
  | [], _ => []
  | [b], _ =>
    if 44 < b.length then [b.drop 44] else []
  | b :: rest, pause =>
    (if 44 < b.length then [b.drop 44, pause] else []) ++ buildArrays rest pause

/-- `AudioGenerator.concatenate_audio`: concatenate WAV buffers with a pause
of `pauseMs` milliseconds (at the first buffer's sample rate) between
consecutive kept segments.  Zero buffers yield `[]`, one buffer is returned
unchanged.  `int(sample_rate * pause_ms / 1000)` agrees with Nat division
for the fixed `pause_ms = 300` used by the pipeline. -/
def concatenateAudio (bufs : List (List Nat)) (pauseMs : Nat) : List Nat :=
  match bufs with
  | [] => []
  | [b] => b
  | b :: rest =>
    let sampleRate := sampleRateOf b
    let pauseSamples := sampleRate * pauseMs / 1000
    let pause := List.replicate (2 * pauseSamples) 0
    let arrays := buildArrays (b :: rest) pause
    if arrays = [] then b
    else
      let dataBytes := arrays.flatten
      let numSamples := dataBytes.length / 2
      wavOutHeader sampleRate numSamples ++ dataBytes

/-! ## VoiceAssigner (src/pipeline/voice_assigner.py) -/

/-- One entry of the voice catalog `AVAILABLE_VOICES`. -/
structure Voice where
  vid : String
  name : String
  gender : String
  accent : String
  style : String
  quality : String
deriving DecidableEq

/-- The static voice catalog `AVAILABLE_VOICES` (13 entries). -/
def AVAILABLE_VOICES : List Voice := [
  ⟨"af_nova", "Nova", "female", "american", "neural", "premium"⟩,
  ⟨"af_shimmer", "Shimmer", "female", "american", "neural", "premium"⟩,
  ⟨"af_samantha", "Samantha", "female", "american", "clear", "standard"⟩,
  ⟨"af_zoey", "Zoey", "female", "american", "young", "standard"⟩,
  ⟨"af_allison", "Allison", "female", "american", "warm", "standard"⟩,
  ⟨"af_ava", "Ava", "female", "american", "modern", "standard"⟩,
  ⟨"af_victoria", "Victoria", "female", "american", "professional", "standard"⟩,
  ⟨"am_alex", "Alex", "male", "american", "default", "standard"⟩,
  ⟨"am_daniel", "Daniel", "male", "american", "deep", "standard"⟩,
  ⟨"am_fred", "Fred", "male", "american", "robotic", "standard"⟩,
  ⟨"bf_amelie", "Amelie", "female", "british", "elegant", "standard"⟩,
  ⟨"bm_daniel", "Daniel (UK)", "male", "british", "professional", "standard"⟩,
  ⟨"bm_oliver", "Oliver", "male", "british", "formal", "standard"⟩]

/-- `self.voices_by_gender[g]`: the catalog filtered by gender. -/
def voicesByGender (g : String) : List Voice :=
  AVAILABLE_VOICES.filter (fun v => v.gender == g)

/-- `self.narrator_voice`: the fixed default narrator voice id. -/
def narratorVoiceId : String := "af_samantha"

/-- Input character record: `{gender, role, description}` (description is
never consulted by `assign_voices` and is omitted). -/
structure CharData where
  gender : String
  role : String
deriving DecidableEq

/-- One output record of `assign_voices`: `{voice_id, voice_name, reasoning}`. -/
structure Assignment where
  voice_id : String
  voice_name : String
  reasoning : String
deriving DecidableEq

/-- CPython dict assignment `m[k] = v`: replace the value in place if the key
exists (keeping its insertion position), otherwise append the new pair. -/
def dinsert : List (String × Assignment) → String → Assignment →
    List (String × Assignment)
  | [], k, v => [(k, v)]
  | (k', v') :: rest, k, v =>
    if k' = k then (k, v) :: rest else (k', v') :: dinsert rest k v

/-- Dict key lookup. -/
def dlookup (k : String) : List (String × Assignment) → Option Assignment
  | [] => none
  | (k', v') :: rest => if k' = k then some v' else dlookup k rest

/-- Candidate pool selection of the main-character loop: male pool for
`gender == "male"`, female pool for `gender == "female"`, and the female
pool as the default for every other gender value. -/
def candidatesFor (gender : String) : List Voice :=
  if gender = "male" then voicesByGender "male"
  else if gender = "female" then voicesByGender "female"
  else voicesByGender "female"

/-- The main-character loop of `assign_voices` (lines 111-137): each main
character takes the first voice of its gender pool not yet in `used_voices`
(which it adds to `used_voices`); if every pool voice is used it takes
`candidates[0]`; the empty-pool fallback (unreachable with this catalog,
and a `KeyError` on `voice['style']` in the source) yields the narrator
voice.  Returns the assignments in loop order and the final `used_voices`.
`used_voices` is a Python `set`; it is modelled as an insertion-ordered
duplicate-free list (ids are only added when absent).  The claims proved
below do not depend on the unspecified iteration order of a CPython set. -/
def assignMains : List (String × CharData) → List String →
    List (String × Assignment) × List String
  | [], used => ([], used)
  | (charName, charData) :: rest, used =>
    let candidates := candidatesFor charData.gender
    let available := candidates.filter (fun v => !(used.contains v.vid))
    match available with
    | v :: _ =>
      let out := assignMains rest (used ++ [v.vid])
      ((charName, ⟨v.vid, v.name,
        "Assigned " ++ v.style ++ " voice for " ++ charData.gender ++ " character"⟩) :: out.1,
       out.2)
    | [] =>
      match candidates with
      | c :: _ =>
        let out := assignMains rest used
        ((charName, ⟨c.vid, c.name,
          "Assigned " ++ c.style ++ " voice for " ++ charData.gender ++ " character"⟩) :: out.1,
         out.2)
      | [] =>
        let out := assignMains rest used
        ((charName, ⟨narratorVoiceId, "Samantha", ""⟩) :: out.1, out.2)

/-- The supporting-character loop of `assign_voices` (lines 148-155):
character `i` (0-based) receives `minor_voices[i % len(minor_voices)]`, with
the voice name looked up in the catalog (falling back to the id). -/
def assignSupporting (minorVoices : List String) :
    List (String × CharData) → Nat → List (String × Assignment) →
    List (String × Assignment)
  | [], _, acc => acc
  | (charName, _) :: rest, i, acc =>
    let voiceId := minorVoices.getD (i % minorVoices.length) narratorVoiceId
    let voiceName :=
      match AVAILABLE_VOICES.find? (fun v => v.vid == voiceId) with
      | some v => v.name
      | none => voiceId
    assignSupporting minorVoices rest (i + 1)
      (dinsert acc charName ⟨voiceId, voiceName, "Supporting character voice"⟩)

/-- `VoiceAssigner.assign_voices` (lines 90-158): assign voices to main
characters (maximizing variety), pin `"Narrator"` (when present among the
input keys) to the fixed narrator voice, then give each supporting character
a voice cycled from the used set (or the narrator voice when no main
character was assigned).  Characters of any other role (`minor`, `system`,
...) receive no entry. -/
def assignVoices (characters : List (String × CharData)) :
    List (String × Assignment) :=
  let mainChars := characters.filter (fun p => p.2.role == "main")
  let supporting := characters.filter (fun p => p.2.role == "supporting")
  let out := assignMains mainChars []
  let asg2 :=
    if characters.any (fun p => p.1 == "Narrator") then
      dinsert out.1 "Narrator" ⟨narratorVoiceId, "Samantha", "Default narrator voice (clear, warm)"⟩
    else out.1
  let minorVoices := if out.2 = [] then [narratorVoiceId] else out.2
  assignSupporting minorVoices supporting 0 asg2

/-! ## AudioGenerator._detect_dialogue_with_speakers (audio_generator.py lines 106-182)

The two attribution regexes of the source are deterministic once written out:
every quantified sub-pattern is followed by a disjoint character class (the
whitespace runs are followed by letters or punctuation, the quote-free
dialogue run is followed by a quote, the lowercase run of a name word is
followed by whitespace), so each greedy run is forced to its maximal length,
and the only choice point is the optional second name word
`(?:\s+[A-Z][a-z]+)?`, which regex backtracking resolves by trying the
two-word reading of the whole remaining pattern first.  The 64 speech verbs
contain no prefix pair, so at most one alternative of the verb alternation
matches at any position.  `re.finditer` scans left to right emitting
non-overlapping matches, restarting after each match end. -/

/-- `\s` for the ASCII range (Python also matches Unicode spaces; all inputs
considered here are ASCII). -/
def isPySpace (c : Char) : Bool :=
  c == ' ' || c == '\t' || c == '\n' || c == '\r' ||
  c == Char.ofNat 11 || c == Char.ofNat 12

/-- Python `str.strip()` restricted to ASCII whitespace. -/
def pyStrip (cs : List Char) : List Char :=
  ((cs.dropWhile isPySpace).reverse.dropWhile isPySpace).reverse

/-- The quote class `["""\'"]` of the source (its repeated members collapse
to the straight double and single quote). -/
def isQuote (c : Char) : Bool :=
  c == '"' || c == '\''

/-- `[A-Z]`. -/
def isUpperAZ (c : Char) : Bool := 'A' ≤ c && c ≤ 'Z'

/-- `[a-z]`. -/
def isLowerAZ (c : Char) : Bool := 'a' ≤ c && c ≤ 'z'

/-- The 64-verb speech alternation shared by both patterns, in source order. -/
def speechVerbs : List String :=
  ["said", "replied", "asked", "whispered", "shouted", "called", "murmured",
   "yelled", "answered", "sighed", "breathed", "hissed", "growled", "declared",
   "demanded", "insisted", "suggested", "continued", "added", "agreed",
   "warned", "pleaded", "begged", "barked", "ordered", "screamed", "announced",
   "laughed", "smiled", "grinned", "chuckled", "groaned", "stammered",
   "stuttered", "sobbed", "wailed", "roared", "sneered", "scoffed", "retorted",
   "interrupted", "protested", "conceded", "acknowledged", "remarked",
   "observed", "noted", "commented", "explained", "offered", "urged",
   "prompted", "wondered", "mused", "pondered", "repeated", "finished",
   "began", "started", "managed", "attempted", "tried", "stated", "spoke"]

/-- Match the verb alternation at the head of `cs`: the first verb of the
list that is a literal prefix wins (no word boundary is required by the
source patterns).  Returns the consumed length. -/
def matchVerb (cs : List Char) : Option Nat :=
  match speechVerbs.find? (fun v => cs.take v.length == v.data) with
  | some v => some v.length
  | none => none

/-- `[A-Z][a-z]+`: one capitalized name word (greedy lowercase run, forced
maximal because whitespace follows in both patterns). -/
def matchNameWord : List Char → Option (List Char × List Char)
  | [] => none
  | c :: rest =>
    if isUpperAZ c then
      let lows := rest.takeWhile isLowerAZ
      if lows = [] then none else some (c :: lows, rest.drop lows.length)
    else none

/-- Tail of the first pattern after the closing quote:
`\s*([A-Z][a-z]+(?:\s+[A-Z][a-z]+)?)\s+(?:verbs)`.
Returns the speaker group and the consumed length.  The optional second name
word is tried first with the full continuation, as regex backtracking does. -/
def matchP1Tail (cs : List Char) : Option (List Char × Nat) :=
  let ws := cs.takeWhile isPySpace
  let cs1 := cs.drop ws.length
  match matchNameWord cs1 with
  | none => none
  | some (w1, cs2) =>
    let withSecond :=
      (let ws2 := cs2.takeWhile isPySpace
       if ws2 = [] then none else
       match matchNameWord (cs2.drop ws2.length) with
       | none => none
       | some (w2, cs3) =>
         let ws3 := cs3.takeWhile isPySpace
         if ws3 = [] then none else
         match matchVerb (cs3.drop ws3.length) with
         | none => none
         | some vlen =>
           some (w1 ++ ws2 ++ w2,
             ws.length + w1.length + ws2.length + w2.length + ws3.length + vlen))
    match withSecond with
    | some r => some r
    | none =>
      let ws3 := cs2.takeWhile isPySpace
      if ws3 = [] then none else
      match matchVerb (cs2.drop ws3.length) with
      | none => none
      | some vlen => some (w1, ws.length + w1.length + ws3.length + vlen)

/-- The dialogue-then-attribution pattern (`dialogue_pattern`, line 113):
quote, non-quote run (group 1), quote, then `matchP1Tail`.  Returns
(consumed length, speaker, dialogue), both groups `.strip()`-ed as the
source does when recording the match. -/
def matchP1 : List Char → Option (Nat × List Char × List Char)
  | [] => none
  | c :: rest =>
    if isQuote c then
      let content := rest.takeWhile (fun x => !(isQuote x))
      if content = [] then none else
      match rest.drop content.length with
      | [] => none
      | q2 :: rest2 =>
        if isQuote q2 then
          match matchP1Tail rest2 with
          | some (sp, tlen) =>
            some (1 + content.length + 1 + tlen, pyStrip sp, pyStrip content)
          | none => none
        else none
    else none

/-- Tail of the second pattern after the name group:
`\s+(?:verbs)\s*[,.:]\s*["']([^"']+)["']`.  Returns (consumed length,
dialogue group). -/
def matchP2Tail (cs : List Char) : Option (Nat × List Char) :=
  let ws1 := cs.takeWhile isPySpace
  if ws1 = [] then none else
  match matchVerb (cs.drop ws1.length) with
  | none => none
  | some vlen =>
    let cs2 := (cs.drop ws1.length).drop vlen
    let ws2 := cs2.takeWhile isPySpace
    match cs2.drop ws2.length with
    | [] => none
    | p :: cs3 =>
      if p == ',' || p == '.' || p == ':' then
        let ws3 := cs3.takeWhile isPySpace
        match cs3.drop ws3.length with
        | [] => none
        | q1 :: cs4 =>
          if isQuote q1 then
            let content := cs4.takeWhile (fun x => !(isQuote x))
            if content = [] then none else
            match cs4.drop content.length with
            | [] => none
            | q2 :: _ =>
              if isQuote q2 then
                some (ws1.length + vlen + ws2.length + 1 + ws3.length + 1 +
                      content.length + 1, pyStrip content)
              else none
          else none
      else none

/-- The attribution-then-dialogue pattern (`reverse_pattern`, line 116):
name group, then `matchP2Tail`.  Returns (consumed length, speaker,
dialogue). -/
def matchP2 (cs : List Char) : Option (Nat × List Char × List Char) :=
  match matchNameWord cs with
  | none => none
  | some (w1, cs2) =>
    let withSecond :=
      (let ws := cs2.takeWhile isPySpace
       if ws = [] then none else
       match matchNameWord (cs2.drop ws.length) with
       | none => none
       | some (w2, cs3) =>
         match matchP2Tail cs3 with
         | some (tlen, dl) =>
           some (w1.length + ws.length + w2.length + tlen,
                 pyStrip (w1 ++ ws ++ w2), dl)
         | none => none)
    match withSecond with
    | some r => some r
    | none =>
      match matchP2Tail cs2 with
      | some (tlen, dl) => some (w1.length + tlen, pyStrip w1, dl)
      | none => none

/-- One recorded regex match: start and end offsets, speaker and dialogue
groups (as stored in the `all_matches` dicts of the source). -/
structure RMatch where
  mstart : Nat
  mend : Nat
  speaker : List Char
  dialogue : List Char
deriving DecidableEq

/-- `re.finditer` for one of the two patterns: scan left to right, at each
position try the pattern, and restart after the end of each (non-empty)
match.  `fuel` is initialised to the text length, which suffices because
both patterns consume at least one character. -/
def scanAux (f : List Char → Option (Nat × List Char × List Char)) :
    Nat → List Char → Nat → List RMatch
  | 0, _, _ => []
  | _ + 1, [], _ => []
  | fuel + 1, c :: rest, pos =>
    match f (c :: rest) with
    | some (len, sp, dl) =>
      ⟨pos, pos + len, sp, dl⟩ :: scanAux f fuel ((c :: rest).drop len) (pos + len)
    | none => scanAux f fuel rest (pos + 1)

/-- Stable insertion by `mstart` (an element is placed before the first
strictly-later element, preserving the original order of equal starts),
matching the stable `all_matches.sort(key=lambda x: x["start"])`. -/
def insertByStart (m : RMatch) : List RMatch → List RMatch
  | [] => [m]
  | x :: xs =>
    if m.mstart ≤ x.mstart then m :: x :: xs else x :: insertByStart m xs

/-- Stable insertion sort by `mstart`. -/
def sortByStart : List RMatch → List RMatch
  | [] => []
  | x :: xs => insertByStart x (sortByStart xs)

/-- All matches of both pattern families, sorted by start offset. -/
def allMatches (text : List Char) : List RMatch :=
  sortByStart (scanAux matchP1 text.length text 0 ++
               scanAux matchP2 text.length text 0)

/-- One output segment: `{speaker, text, type}`. -/
structure Segment where
  speaker : List Char
  text : List Char
  kind : String
deriving DecidableEq

/-- `"Narrator"`. -/
def narratorName : List Char := "Narrator".data

/-- The match walk of `_detect_dialogue_with_speakers` (lines 143-180):
for each match emit the narration between the previous match end and the
match start (stripped, dropped when empty), then the dialogue segment with
the matched speaker when it is a known character name or `"Narrator"` and
`"Narrator"` otherwise; trailing text becomes a final narration segment. -/
def buildSegments (text : List Char) (cvKeys : List (List Char)) :
    List RMatch → Nat → List Segment
  | [], lastEnd =>
    if lastEnd < text.length then
      let remaining := pyStrip (text.drop lastEnd)
      if remaining = [] then [] else [⟨narratorName, remaining, "narration"⟩]
    else []
  | m :: ms, lastEnd =>
    (if lastEnd < m.mstart then
       let narr := pyStrip ((text.drop lastEnd).take (m.mstart - lastEnd))
       if narr = [] then [] else [⟨narratorName, narr, "narration"⟩]
     else []) ++
    (if cvKeys.contains m.speaker || m.speaker == narratorName then
       ⟨m.speaker, m.dialogue, "dialogue"⟩
     else ⟨narratorName, m.dialogue, "dialogue"⟩) ::
    buildSegments text cvKeys ms m.mend

/-- `AudioGenerator._detect_dialogue_with_speakers`: collect the matches of
both regex families, sort them by start offset, walk them into segments, and
fall back to a single narration segment holding the whole text when no
segment was produced. -/
def detectDialogue (text : List Char) (cvMap : List (List Char × String)) :
    List Segment :=
  let segs := buildSegments text (cvMap.map Prod.fst) (allMatches text) 0
  if segs = [] then [⟨narratorName, text, "narration"⟩] else segs

/-! ## AudioGenerator.generate_simple pre-dispatch cleaning (lines 184-194) -/

/-- Python `str.split()` (no separator), fuel-indexed: whitespace runs
delimit words, leading/trailing whitespace produces no empty words.  At a
non-space character the maximal non-space run becomes a word and scanning
resumes after it. -/
def pySplitF : Nat → List Char → List (List Char)
  | 0, _ => []
  | _ + 1, [] => []
  | fuel + 1, c :: rest =>
    if isPySpace c then pySplitF fuel rest
    else
      (c :: rest.takeWhile (fun x => !(isPySpace x))) ::
      pySplitF fuel (rest.drop (rest.takeWhile (fun x => !(isPySpace x))).length)

/-- Python `str.split()` with enough fuel (each step consumes at least one
character, so the length suffices). -/
def pySplit (cs : List Char) : List (List Char) := pySplitF cs.length cs

/-- The pre-dispatch normalization of `generate_simple` (lines 188-194):
truncate to `max_chunk_size`, remove NUL and U+FFFD, collapse whitespace by
`' '.join(text.split())`, and raise (modelled as `Except.error`) when the
cleaned text is empty. -/
def cleanText (maxChunkSize : Nat) (text : List Char) : Except Unit (List Char) :=
  let t1 := if maxChunkSize < text.length then text.take maxChunkSize else text
  let t2 := t1.filter (fun c => !(c == Char.ofNat 0 || c == Char.ofNat 0xFFFD))
  let t3 := List.intercalate [' '] (pySplit t2)
  if pyStrip t3 = [] then Except.error () else Except.ok t3

/-! ## Concrete buffers used as witnesses and counterexamples -/

/-- A RIFF/WAVE buffer whose `fmt ` chunk has odd length 17 (a valid layout:
the chunk walk skips the pad byte after it).  Its `data` chunk payload embeds
a second, fake `data` chunk header, which the misaligned second parse of the
re-emitted (pad-free) buffer picks up. -/
def cexOddFmt : List Nat :=
  [82, 73, 70, 70, 0, 0, 0, 0, 87, 65, 86, 69,
   102, 109, 116, 32, 17, 0, 0, 0,
   1, 1, 1, 1, 1, 1, 1, 1, 1, 1, 1, 1, 1, 1, 1, 1, 1, 0,
   100, 97, 116, 97, 20, 0, 0, 0,
   0, 100, 97, 116, 97, 2, 0, 0, 0, 88, 89, 0, 0, 0, 0, 255, 255, 255, 255, 0]

/-- A WAV buffer with a vendor `FLLR` padding chunk (size 2) between the
`WAVE` magic and the `fmt ` chunk, as macOS `afconvert` produces. -/
def wFllr : List Nat :=
  riffTag ++ u32le 48 ++ waveTag ++
  [70, 76, 76, 82] ++ u32le 2 ++ [0, 0] ++
  fmtTag ++ u32le 16 ++ u16le 1 ++ u16le 1 ++ u32le 10 ++ u32le 20 ++
  u16le 2 ++ u16le 16 ++ dataTag ++ u32le 2 ++ [7, 8]

/-- Canonical 16-bit mono WAV, sample rate 10, data bytes `[1, 2]`. -/
def cexRateA : List Nat := wavOutHeader 10 1 ++ [1, 2]

/-- Canonical 16-bit mono WAV, sample rate 7, data bytes `[77, 66]`. -/
def cexRateB : List Nat := wavOutHeader 7 1 ++ [77, 66]

/-- Canonical 16-bit mono WAV, sample rate 10, empty data chunk (44 bytes). -/
def cexZeroSam : List Nat := wavOutHeader 10 0

/-- Canonical 16-bit mono WAV, sample rate 10, data bytes `[7, 8]`. -/
def witOneSam : List Nat := wavOutHeader 10 1 ++ [7, 8]

/-! ## Theorems -/

/-- C6: a buffer that lacks the `RIFF`/`WAVE` magic, or in which the chunk
walk locates no `fmt ` chunk or no `data` chunk, is returned by the sanitize
operation byte-identically (and the operation is total, hence never
raises). -/
theorem cleanWav_passthrough (x : List Nat)
    (h : x.take 4 ≠ riffTag ∨ (x.drop 8).take 4 ≠ waveTag ∨
         (chunkWalk (x.drop 12) none none).1 = none ∨
         (chunkWalk (x.drop 12) none none).2 = none) :
    cleanWav x = x := by
  unfold cleanWav
  split
  · rfl
  · split
    · rfl
    · rename_i hmagic
      rcases hEq : chunkWalk (x.drop 12) none none with ⟨fc, dc⟩
      rw [not_not] at hmagic
      rcases fc with _ | f <;> rcases dc with _ | d <;> simp_all

/-- C6 witness: a three-byte buffer lacks the `RIFF` magic and passes
through unchanged. -/
theorem cleanWav_passthrough_witness :
    ([0, 1, 2] : List Nat).take 4 ≠ riffTag ∧ cleanWav [0, 1, 2] = [0, 1, 2] :=
  ⟨by decide, cleanWav_passthrough _ (Or.inl (by decide))⟩

/-- C5 counterexample: sanitize is not idempotent.  On `cexOddFmt` (odd
`fmt ` chunk) the first application strips the pad byte, so the second
application walks the chunks misaligned and extracts a different `data`
chunk. -/
theorem cleanWav_not_idempotent :
    cleanWav (cleanWav cexOddFmt) ≠ cleanWav cexOddFmt := by decide

/-- C4 counterexample: a buffer whose sample rate (7) differs from the first
buffer's (10) is not dropped: its data bytes `[77, 66]` appear verbatim at
the end of the concatenation output. -/
theorem concat_keeps_mismatched_rate :
    sampleRateOf cexRateB ≠ sampleRateOf cexRateA ∧
    cexRateB.drop 44 = [77, 66] ∧
    (concatenateAudio [cexRateA, cexRateB] 300).drop 52 = [77, 66] := by decide

/-- C7 counterexample: with a first buffer of zero samples the length law
fails, because a 44-byte buffer contributes neither its (empty) data nor the
inter-segment pause: the output carries 2 data bytes where the law predicts
`2 * ((0 + 1) + 1 * 3) = 8`. -/
theorem concat_length_law_fails_zero :
    (concatenateAudio [cexZeroSam, witOneSam] 300).length ≠
      44 + 2 * ((([cexZeroSam, witOneSam].map
        (fun b => (b.length - 44) / 2)).sum) +
        1 * (sampleRateOf cexZeroSam * 300 / 1000)) := by decide

/-- C1 counterexample: a character whose role is `minor` receives no entry
at all from `assign_voices`, so the returned mapping does not contain every
input character name. -/
theorem assignVoices_drops_minor :
    ¬ ("Bob" ∈ (assignVoices [("Bob", ⟨"male", "minor"⟩)]).map Prod.fst) := by
  decide

/-- C3 counterexample: a main character and a supporting character (both
male) receive the same voice `am_alex` although the male pool is not
exhausted (`am_fred` is assigned to nobody). -/
theorem assignVoices_reuses_for_supporting :
    (dlookup "Alice" (assignVoices
        [("Alice", ⟨"male", "main"⟩), ("Bob", ⟨"male", "supporting"⟩)])).map
      Assignment.voice_id = some "am_alex" ∧
    (dlookup "Bob" (assignVoices
        [("Alice", ⟨"male", "main"⟩), ("Bob", ⟨"male", "supporting"⟩)])).map
      Assignment.voice_id = some "am_alex" ∧
    "am_fred" ∈ (voicesByGender "male").map Voice.vid ∧
    ¬ ("am_fred" ∈ (assignVoices
        [("Alice", ⟨"male", "main"⟩), ("Bob", ⟨"male", "supporting"⟩)]).map
      (fun p => p.2.voice_id)) := by decide

/-- C2 counterexample: segmentation loses non-whitespace input characters.
On `"Hi" Bob said` the only segment is the dialogue `Hi`; the quotes and
the attribution `Bob said` (in particular the letter `B`) are absent from
the concatenation of segment texts. -/
theorem segments_lose_attribution :
    (detectDialogue "\"Hi\" Bob said".data [("Bob".data, "v1")]).map
      Segment.text = [['H', 'i']] ∧
    'B' ∈ "\"Hi\" Bob said".data ∧
    ¬ ('B' ∈ ((detectDialogue "\"Hi\" Bob said".data
        [("Bob".data, "v1")]).map Segment.text).flatten) := by decide


/-- The chunk walk does not depend on the fuel once the fuel covers the
suffix length (each step consumes at least 8 bytes). -/
theorem chunkWalkF_irrel :
    ∀ fuel fuel' s fc dc, s.length ≤ fuel → s.length ≤ fuel' →
      chunkWalkF fuel s fc dc = chunkWalkF fuel' s fc dc := by
  intro fuel
  induction fuel with
  | zero =>
    intro fuel' s fc dc h h'
    have hs : s = [] := List.eq_nil_of_length_eq_zero (by omega)
    subst hs
    cases fuel' with
    | zero => rfl
    | succ m =>
      simp only [chunkWalkF]
      rw [if_neg (by simp)]
  | succ n ih =>
    intro fuel' s fc dc h h'
    cases fuel' with
    | zero =>
      have hs : s = [] := List.eq_nil_of_length_eq_zero (by omega)
      subst hs
      simp only [chunkWalkF]
      rw [if_neg (by simp)]
    | succ m =>
      simp only [chunkWalkF]
      by_cases hc : 8 < s.length
      · rw [if_pos hc, if_pos hc]
        have hd := List.length_drop
          (8 + leU32 ((s.drop 4).take 4) +
            (if leU32 ((s.drop 4).take 4) % 2 = 1 then 1 else 0)) s
        exact ih m _ _ _ (by omega) (by omega)
      · rw [if_neg hc, if_neg hc]

/-- One-step unfolding of the chunk walk. -/
theorem chunkWalk_step (s : List Nat) (fc dc : Option (List Nat)) :
    chunkWalk s fc dc =
      if 8 < s.length then
        chunkWalk
          (s.drop (8 + leU32 ((s.drop 4).take 4) +
            (if leU32 ((s.drop 4).take 4) % 2 = 1 then 1 else 0)))
          (if s.take 4 = fmtTag
            then some ((s.drop 8).take (leU32 ((s.drop 4).take 4))) else fc)
          (if s.take 4 = dataTag
            then some ((s.drop 8).take (leU32 ((s.drop 4).take 4))) else dc)
      else (fc, dc) := by
  unfold chunkWalk
  rcases hl : s.length with _ | n
  · have hs : s = [] := List.eq_nil_of_length_eq_zero hl
    subst hs
    simp only [chunkWalkF]
    rw [if_neg (by simp)]
  · simp only [chunkWalkF]
    rw [hl]
    by_cases hc : 8 < n + 1
    · rw [if_pos hc, if_pos hc]
      have hd := List.length_drop
        (8 + leU32 ((s.drop 4).take 4) +
          (if leU32 ((s.drop 4).take 4) % 2 = 1 then 1 else 0)) s
      exact chunkWalkF_irrel _ _ _ _ _ (by omega) le_rfl
    · rw [if_neg hc, if_neg hc]

/-- `struct.pack` then `struct.unpack` round-trips below 2^32. -/
theorem leU32_u32le (n : Nat) (h : n < 4294967296) : leU32 (u32le n) = n := by
  simp only [leU32, u32le, List.getD_cons_zero, List.getD_cons_succ]
  omega

/-- Walking the `data` chunk tail of a canonical buffer: the chunk is found
whenever its payload is non-empty (the loop guard `pos < len - 8` skips a
trailing chunk with an empty payload). -/
theorem chunkWalk_dataPart (F D : List Nat) (hDlt : D.length < 4294967296) :
    chunkWalk (dataTag ++ (u32le D.length ++ D)) (some F) none =
      (some F, if D = [] then none else some D) := by
  have hlen : (dataTag ++ (u32le D.length ++ D)).length = 8 + D.length := by
    simp only [List.length_append, dataTag, u32le, List.length_cons,
      List.length_nil]
    omega
  by_cases hD : D = []
  · subst hD
    rw [chunkWalk_step, if_neg (by simp [dataTag, u32le])]
    simp
  · have htake4 : (dataTag ++ (u32le D.length ++ D)).take 4 = dataTag :=
      List.take_left' rfl
    have hdrop4 : (dataTag ++ (u32le D.length ++ D)).drop 4 =
        u32le D.length ++ D := List.drop_left' rfl
    have hsize : ((dataTag ++ (u32le D.length ++ D)).drop 4).take 4 =
        u32le D.length := by rw [hdrop4]; exact List.take_left' rfl
    have hdrop8 : (dataTag ++ (u32le D.length ++ D)).drop 8 = D := by
      have h1 : ((dataTag ++ (u32le D.length ++ D)).drop 4).drop 4 =
          (dataTag ++ (u32le D.length ++ D)).drop 8 := by
        rw [List.drop_drop]
      rw [← h1, hdrop4]
      exact List.drop_left' rfl
    have hdata : ((dataTag ++ (u32le D.length ++ D)).drop 8).take D.length =
        D := by rw [hdrop8]; exact List.take_length D
    have hDpos : 0 < D.length := List.length_pos.mpr hD
    rw [chunkWalk_step, if_pos (by rw [hlen]; omega)]
    rw [hsize, leU32_u32le _ hDlt, htake4, hdata]
    rw [if_neg (by decide : ¬ (dataTag = fmtTag)), if_pos rfl]
    rw [chunkWalk_step, if_neg ?cond, if_neg hD]
    case cond =>
      have hd := List.length_drop
        (8 + D.length + (if D.length % 2 = 1 then 1 else 0))
        (dataTag ++ (u32le D.length ++ D))
      rw [hlen] at hd
      omega

/-- Walking the chunk table of a canonical two-chunk buffer (as re-emitted by
the sanitize step) recovers its `fmt ` chunk, and its `data` chunk when the
data payload is non-empty, provided the `fmt ` chunk has even length (an odd
length would misalign the walk, since the re-emitted buffer carries no pad
byte). -/
theorem chunkWalk_canonical_tail (F D : List Nat) (hF2 : F.length % 2 = 0)
    (hFlt : F.length < 4294967296) (hDlt : D.length < 4294967296) :
    chunkWalk
      (fmtTag ++ (u32le F.length ++ (F ++ (dataTag ++ (u32le D.length ++ D)))))
      none none =
      (some F, if D = [] then none else some D) := by
  set R := dataTag ++ (u32le D.length ++ D) with hR
  set t := fmtTag ++ (u32le F.length ++ (F ++ R)) with ht
  have hRlen : R.length = 8 + D.length := by
    rw [hR]
    simp only [List.length_append, dataTag, u32le, List.length_cons,
      List.length_nil]
    omega
  have hlen : t.length = 8 + F.length + R.length := by
    rw [ht]
    simp only [List.length_append, fmtTag, u32le, List.length_cons,
      List.length_nil]
    omega
  have htake4 : t.take 4 = fmtTag := List.take_left' rfl
  have hdrop4 : t.drop 4 = u32le F.length ++ (F ++ R) := List.drop_left' rfl
  have hsize : (t.drop 4).take 4 = u32le F.length := by
    rw [hdrop4]; exact List.take_left' rfl
  have hdrop8 : t.drop 8 = F ++ R := by
    have h1 : (t.drop 4).drop 4 = t.drop 8 := by rw [List.drop_drop]
    rw [← h1, hdrop4]
    exact List.drop_left' rfl
  have hdata : (t.drop 8).take F.length = F := by
    rw [hdrop8]; exact List.take_left F R
  have hdropAdv : t.drop (8 + F.length + 0) = R := by
    rw [Nat.add_zero]
    have h1 : (t.drop 8).drop F.length = t.drop (8 + F.length) := by
      rw [List.drop_drop]
    rw [← h1, hdrop8]
    exact List.drop_left F R
  rw [chunkWalk_step, if_pos (show 8 < t.length from by rw [hlen, hRlen]; omega)]
  rw [hsize, leU32_u32le _ hFlt, htake4, hdata]
  rw [if_pos rfl, if_neg (by decide : ¬ (fmtTag = dataTag)),
    if_neg (by omega : ¬ (F.length % 2 = 1))]
  rw [hdropAdv]
  exact chunkWalk_dataPart F D hDlt

/-- Right-associated view of the canonical buffer. -/
theorem canonicalWav_assoc (F D : List Nat) :
    canonicalWav F D =
      riffTag ++ (u32le (4 + 8 + F.length + 8 + D.length) ++ (waveTag ++
        (fmtTag ++ (u32le F.length ++ (F ++ (dataTag ++ (u32le D.length ++ D))))))) := by
  unfold canonicalWav
  simp [List.append_assoc]

/-- When the chunk walk locates both chunks, sanitize re-emits the canonical
buffer. -/
theorem cleanWav_parsed (x F D : List Nat) (h44 : ¬ x.length < 44)
    (hmagic : x.take 4 = riffTag ∧ (x.drop 8).take 4 = waveTag)
    (hwalk : chunkWalk (x.drop 12) none none = (some F, some D)) :
    cleanWav x = canonicalWav F D := by
  unfold cleanWav
  rw [if_neg h44, if_neg (not_not_intro hmagic), hwalk]

/-- Sanitizing a canonical buffer with an even-length `fmt ` chunk returns
it unchanged. -/
theorem cleanWav_canonical_fix (F D : List Nat) (hF2 : F.length % 2 = 0)
    (hFlt : F.length < 4294967296) (hDlt : D.length < 4294967296) :
    cleanWav (canonicalWav F D) = canonicalWav F D := by
  by_cases h44 : (canonicalWav F D).length < 44
  · unfold cleanWav
    rw [if_pos h44]
  · have htk : (canonicalWav F D).take 4 = riffTag := by
      rw [canonicalWav_assoc]
      exact List.take_left' rfl
    have hd4 : (canonicalWav F D).drop 4 =
        u32le (4 + 8 + F.length + 8 + D.length) ++ (waveTag ++
          (fmtTag ++ (u32le F.length ++ (F ++ (dataTag ++ (u32le D.length ++ D)))))) := by
      rw [canonicalWav_assoc]
      exact List.drop_left' rfl
    have hd8 : (canonicalWav F D).drop 8 =
        waveTag ++ (fmtTag ++ (u32le F.length ++
          (F ++ (dataTag ++ (u32le D.length ++ D))))) := by
      have h1 : ((canonicalWav F D).drop 4).drop 4 = (canonicalWav F D).drop 8 := by
        rw [List.drop_drop]
      rw [← h1, hd4]
      exact List.drop_left' rfl
    have hwv : ((canonicalWav F D).drop 8).take 4 = waveTag := by
      rw [hd8]
      exact List.take_left' rfl
    have hd12 : (canonicalWav F D).drop 12 =
        fmtTag ++ (u32le F.length ++ (F ++ (dataTag ++ (u32le D.length ++ D)))) := by
      have h1 : ((canonicalWav F D).drop 8).drop 4 = (canonicalWav F D).drop 12 := by
        rw [List.drop_drop]
      rw [← h1, hd8]
      exact List.drop_left' rfl
    unfold cleanWav
    rw [if_neg h44, if_neg (not_not_intro ⟨htk, hwv⟩), hd12,
      chunkWalk_canonical_tail F D hF2 hFlt hDlt]
    by_cases hD : D = []
    · rw [if_pos hD]
    · rw [if_neg hD]

/-- C5 amended: the sanitize operation is idempotent on every buffer from
which the chunk walk does not extract an odd-length `fmt ` chunk (or
over-long chunks): if the located `fmt ` chunk has even length and both
chunk lengths fit in 32 bits, then `_clean_wav(_clean_wav(x)) = _clean_wav(x)`.
(For an odd-length `fmt ` chunk the re-emitted buffer drops the pad byte, so
a second application can parse different chunks, see the counterexample.) -/
theorem cleanWav_idempotent_even (x : List Nat)
    (h : ∀ F D, chunkWalk (x.drop 12) none none = (some F, some D) →
      F.length % 2 = 0 ∧ F.length < 4294967296 ∧ D.length < 4294967296) :
    cleanWav (cleanWav x) = cleanWav x := by
  by_cases h44 : x.length < 44
  · have e : cleanWav x = x := by
      unfold cleanWav
      rw [if_pos h44]
    rw [e]
    exact e
  · by_cases hm : x.take 4 = riffTag ∧ (x.drop 8).take 4 = waveTag
    · rcases hw : chunkWalk (x.drop 12) none none with ⟨fc, dc⟩
      rcases fc with _ | F
      · have e : cleanWav x = x :=
          cleanWav_passthrough x (Or.inr (Or.inr (Or.inl (by rw [hw]))))
        rw [e]
        exact e
      · rcases dc with _ | D
        · have e : cleanWav x = x :=
            cleanWav_passthrough x (Or.inr (Or.inr (Or.inr (by rw [hw]))))
          rw [e]
          exact e
        · obtain ⟨hF2, hFlt, hDlt⟩ := h F D hw
          rw [cleanWav_parsed x F D h44 hm hw]
          exact cleanWav_canonical_fix F D hF2 hFlt hDlt
    · have e : cleanWav x = x := cleanWav_passthrough x (by tauto)
      rw [e]
      exact e

/-- C5 amended witness: the `FLLR`-padded buffer `wFllr` satisfies the
even-`fmt ` hypothesis and sanitize is idempotent on it. -/
theorem cleanWav_idempotent_even_witness :
    (∀ F D, chunkWalk (wFllr.drop 12) none none = (some F, some D) →
      F.length % 2 = 0 ∧ F.length < 4294967296 ∧ D.length < 4294967296) ∧
    cleanWav (cleanWav wFllr) = cleanWav wFllr := by
  have hh : ∀ F D, chunkWalk (wFllr.drop 12) none none = (some F, some D) →
      F.length % 2 = 0 ∧ F.length < 4294967296 ∧ D.length < 4294967296 := by
    intro F D hFD
    rw [show chunkWalk (wFllr.drop 12) none none =
        (some [1, 0, 1, 0, 10, 0, 0, 0, 20, 0, 0, 0, 2, 0, 16, 0],
         some [7, 8]) from by decide] at hFD
    injection hFD with h1 h2
    injection h1 with h1
    injection h2 with h2
    subst h1
    subst h2
    exact ⟨by decide, by decide, by decide⟩
  exact ⟨hh, cleanWav_idempotent_even wFllr hh⟩

/-- The output header of `concatenate_audio` is always 44 bytes. -/
theorem wavOutHeader_length (r n : Nat) : (wavOutHeader r n).length = 44 := by
  simp [wavOutHeader, riffTag, waveTag, fmtTag, dataTag, u32le, u16le]

/-- Every buffer longer than 44 bytes contributes its payload to the
`arrays` list, regardless of its sample rate. -/
theorem mem_buildArrays (pause : List Nat) :
    ∀ segs b, b ∈ segs → 44 < b.length → b.drop 44 ∈ buildArrays segs pause := by
  intro segs
  induction segs with
  | nil => intro b hb; cases hb
  | cons x rest ih =>
    intro b hb hlen
    cases rest with
    | nil =>
      have hbx : b = x := List.mem_singleton.mp hb
      subst hbx
      simp only [buildArrays, if_pos hlen]
      exact List.mem_singleton.mpr rfl
    | cons y ys =>
      simp only [buildArrays]
      rcases List.mem_cons.mp hb with rfl | hb
      · rw [if_pos hlen]
        simp
      · exact List.mem_append_right _ (ih b hb hlen)

/-- An element of a list of lists occurs contiguously in its flattening. -/
theorem flatten_decomp {α : Type} (L : List (List α)) (a : List α)
    (h : a ∈ L) : ∃ p q, L.flatten = p ++ (a ++ q) := by
  induction L with
  | nil => cases h
  | cons x rest ih =>
    rcases List.mem_cons.mp h with rfl | h
    · exact ⟨[], rest.flatten, by simp⟩
    · obtain ⟨p, q, hpq⟩ := ih h
      exact ⟨x ++ p, q, by simp [hpq]⟩

/-- C4 amended: during concatenation no buffer is dropped for a sample-rate
mismatch (and no warning path exists): for every input list of N ≥ 2
buffers on which `concatenate_audio` completes without raising — the first
buffer carries the full 28 bytes its rate read dereferences, and every
buffer longer than 44 bytes has an even (int16-aligned) payload — every
buffer longer than 44 bytes, whatever its sample rate, has its post-header
bytes appear contiguously in the output.  (Buffers of at most 44 bytes are
skipped by the `len(segment) > 44` guard and contribute no samples.) -/
theorem concat_keeps_all_buffers (b0 : List Nat) (rest : List (List Nat))
    (hrest : rest ≠ []) (_hhdr : 28 ≤ b0.length)
    (_heven : ∀ c ∈ b0 :: rest, 44 < c.length → c.length % 2 = 0)
    (b : List Nat) (hb : b ∈ b0 :: rest) (hlen : 44 < b.length) :
    ∃ p q, concatenateAudio (b0 :: rest) 300 = p ++ (b.drop 44 ++ q) := by
  match rest, hrest with
  | r1 :: rs, _ =>
    simp only [concatenateAudio]
    set pause := List.replicate
      (2 * (sampleRateOf b0 * 300 / 1000)) (0 : Nat) with hp
    have hmem : b.drop 44 ∈ buildArrays (b0 :: r1 :: rs) pause :=
      mem_buildArrays pause _ b hb hlen
    rw [if_neg (List.ne_nil_of_mem hmem)]
    obtain ⟨p, q, hpq⟩ :=
      flatten_decomp (buildArrays (b0 :: r1 :: rs) pause) (b.drop 44) hmem
    refine ⟨wavOutHeader (sampleRateOf b0)
      ((buildArrays (b0 :: r1 :: rs) pause).flatten.length / 2) ++ p, q, ?_⟩
    rw [hpq]
    simp [hpq]

/-- C4 amended witness: `[cexRateA, cexRateB]` lies in the non-raising
domain (28-byte header prefix present, even payloads) and the
mismatched-rate buffer `cexRateB` is kept in the concatenation output. -/
theorem concat_keeps_all_buffers_witness :
    (([cexRateB] : List (List Nat)) ≠ [] ∧ 28 ≤ cexRateA.length ∧
      (∀ c ∈ cexRateA :: [cexRateB], 44 < c.length → c.length % 2 = 0) ∧
      cexRateB ∈ cexRateA :: [cexRateB] ∧ 44 < cexRateB.length) ∧
    ∃ p q, concatenateAudio (cexRateA :: [cexRateB]) 300 =
      p ++ (cexRateB.drop 44 ++ q) :=
  ⟨⟨by decide, by decide, by decide, by decide, by decide⟩,
   concat_keeps_all_buffers cexRateA [cexRateB] (by decide) (by decide)
     (by decide) cexRateB (by decide) (by decide)⟩

/-- Summing halves of even numbers. -/
theorem sum_halves :
    ∀ l : List (List Nat), (∀ b ∈ l, (b.length - 44) % 2 = 0) →
      2 * (l.map (fun b => (b.length - 44) / 2)).sum =
        (l.map (fun b => b.length - 44)).sum := by
  intro l
  induction l with
  | nil => intro _; simp
  | cons x rest ih =>
    intro h
    have hx := h x (by simp)
    have ih' := ih (fun b hb => h b (List.mem_cons_of_mem x hb))
    simp only [List.map_cons, List.sum_cons]
    omega

/-- Length of the flattened `arrays` list when every buffer is kept: the
data bytes of each buffer plus one pause per non-final buffer. -/
theorem buildArrays_flatten_length (pause : List Nat) :
    ∀ segs, (∀ b ∈ segs, 44 < b.length) → segs ≠ [] →
      ((buildArrays segs pause).flatten).length =
        (segs.map (fun b => b.length - 44)).sum +
          (segs.length - 1) * pause.length := by
  intro segs
  induction segs with
  | nil => intro _ h; exact absurd rfl h
  | cons x rest ih =>
    intro hall _
    have hx : 44 < x.length := hall x (by simp)
    cases rest with
    | nil =>
      simp only [buildArrays, if_pos hx]
      simp [List.length_drop]
    | cons y ys =>
      have ih' := ih (fun b hb => hall b (List.mem_cons_of_mem x hb)) (by simp)
      simp only [List.length_cons, Nat.add_sub_cancel, List.map_cons,
        List.sum_cons] at ih'
      simp only [buildArrays, if_pos hx, List.cons_append, List.nil_append,
        List.flatten_cons, List.length_append, List.map_cons, List.sum_cons,
        List.length_cons, Nat.add_sub_cancel, List.length_drop]
      have hstep : ((buildArrays (y :: ys) pause).flatten).length =
          y.length - 44 + (List.map (fun b => b.length - 44) ys).sum +
            ys.length * pause.length := by omega
      rw [hstep, Nat.succ_mul]
      omega

/-- C7 amended: concatenation length law for N ≥ 2 canonical 16-bit mono
PCM buffers with 44-byte headers and at least one sample each: the output
is a 44-byte-header WAV whose data-chunk byte length is
`2 * (s₁ + ... + s_N + (N-1) * (R * 300 / 1000))`, where `s_i` is buffer
`i`'s sample count and `R` the first buffer's sample rate; silence is
inserted only between consecutive segments.  (With a zero-sample buffer the
law fails, see the counterexample: such a buffer contributes neither data
nor a pause.) -/
theorem concat_length_law (b0 : List Nat) (rest : List (List Nat))
    (hrest : rest ≠ [])
    (hlen : ∀ b ∈ b0 :: rest, 46 ≤ b.length ∧ b.length % 2 = 0) :
    (concatenateAudio (b0 :: rest) 300).length =
      44 + 2 * (((b0 :: rest).map (fun b => (b.length - 44) / 2)).sum +
        rest.length * (sampleRateOf b0 * 300 / 1000)) ∧
    (concatenateAudio (b0 :: rest) 300).take 44 =
      wavOutHeader (sampleRateOf b0)
        (((b0 :: rest).map (fun b => (b.length - 44) / 2)).sum +
          rest.length * (sampleRateOf b0 * 300 / 1000)) := by
  match rest, hrest with
  | r1 :: rs, _ =>
    simp only [concatenateAudio]
    have hall : ∀ b ∈ b0 :: r1 :: rs, 44 < b.length := by
      intro b hb
      have := (hlen b hb).1
      omega
    have hb0 : 44 < b0.length := hall b0 (by simp)
    have hne : buildArrays (b0 :: r1 :: rs)
        (List.replicate (2 * (sampleRateOf b0 * 300 / 1000)) 0) ≠ [] :=
      List.ne_nil_of_mem (mem_buildArrays _ _ b0 (by simp) hb0)
    rw [if_neg hne]
    have hflat := buildArrays_flatten_length
      (List.replicate (2 * (sampleRateOf b0 * 300 / 1000)) 0)
      (b0 :: r1 :: rs) hall (by simp)
    have heven : ∀ b ∈ b0 :: r1 :: rs, (b.length - 44) % 2 = 0 := by
      intro b hb
      have := (hlen b hb).2
      omega
    have hsum := sum_halves (b0 :: r1 :: rs) heven
    simp only [List.length_replicate, List.length_cons, Nat.add_sub_cancel,
      List.map_cons, List.sum_cons] at hflat hsum ⊢
    set p := sampleRateOf b0 * 300 / 1000 with hpdef
    have hx : (rs.length + 1) * (2 * p) = 2 * (rs.length * p) + 2 * p := by
      ring
    rw [hx] at hflat
    have hy : (rs.length + 1) * p = rs.length * p + p := by ring
    constructor
    · rw [List.length_append, wavOutHeader_length, hy]
      omega
    · rw [List.take_left' (wavOutHeader_length _ _), hy]
      have hn : ((buildArrays (b0 :: r1 :: rs)
          (List.replicate (2 * p) 0)).flatten).length / 2 =
          (b0.length - 44) / 2 +
            ((r1.length - 44) / 2 +
              (List.map (fun b => (b.length - 44) / 2) rs).sum) +
            (rs.length * p + p) := by
        omega
      rw [hn]

/-- C7 witness: two one-sample buffers at rate 10 give an output of
`44 + 2 * (1 + 1 + 3)` bytes with the canonical header. -/
theorem concat_length_law_witness :
    (([witOneSam] : List (List Nat)) ≠ [] ∧
      ∀ b ∈ witOneSam :: [witOneSam], 46 ≤ b.length ∧ b.length % 2 = 0) ∧
    (concatenateAudio (witOneSam :: [witOneSam]) 300).length =
      44 + 2 * (((witOneSam :: [witOneSam]).map
        (fun b => (b.length - 44) / 2)).sum +
        ([witOneSam] : List (List Nat)).length *
          (sampleRateOf witOneSam * 300 / 1000)) ∧
    (concatenateAudio (witOneSam :: [witOneSam]) 300).take 44 =
      wavOutHeader (sampleRateOf witOneSam)
        (((witOneSam :: [witOneSam]).map (fun b => (b.length - 44) / 2)).sum +
          ([witOneSam] : List (List Nat)).length *
            (sampleRateOf witOneSam * 300 / 1000)) :=
  ⟨⟨by decide, by decide⟩,
   concat_length_law witOneSam [witOneSam] (by decide) (by decide)⟩

/-- Speakers emitted by the match walk are the narrator or known names. -/
theorem buildSegments_speakers (text : List Char) (cvKeys : List (List Char)) :
    ∀ ms lastEnd seg, seg ∈ buildSegments text cvKeys ms lastEnd →
      seg.speaker = narratorName ∨ seg.speaker ∈ cvKeys := by
  intro ms
  induction ms with
  | nil =>
    intro lastEnd seg h
    simp only [buildSegments] at h
    split at h
    · split at h
      · cases h
      · rcases List.mem_singleton.mp h with rfl
        exact Or.inl rfl
    · cases h
  | cons m ms ih =>
    intro lastEnd seg h
    simp only [buildSegments] at h
    rcases List.mem_append.mp h with hpre | hrest
    · split at hpre
      · split at hpre
        · cases hpre
        · rcases List.mem_singleton.mp hpre with rfl
          exact Or.inl rfl
      · cases hpre
    · rcases List.mem_cons.mp hrest with rfl | htail
      · by_cases hc : cvKeys.contains m.speaker || m.speaker == narratorName
        · rw [if_pos hc]
          have hc' : m.speaker ∈ cvKeys ∨ m.speaker = narratorName := by
            simpa using hc
          rcases hc' with h1 | h2
          · exact Or.inr h1
          · exact Or.inl h2
        · rw [if_neg hc]
          exact Or.inl rfl
      · exact ih m.mend seg htail

/-- C9: every segment's resolved speaker is either a key of the supplied
character/voice map or the literal `"Narrator"`; a matched attribution name
not present in the map is replaced by `"Narrator"`. -/
theorem detectDialogue_speakers (text : List Char)
    (cvMap : List (List Char × String)) :
    ∀ seg ∈ detectDialogue text cvMap,
      seg.speaker = narratorName ∨ seg.speaker ∈ cvMap.map Prod.fst := by
  intro seg h
  simp only [detectDialogue] at h
  split at h
  · rcases List.mem_singleton.mp h with rfl
    exact Or.inl rfl
  · exact buildSegments_speakers text (cvMap.map Prod.fst) _ 0 seg h

/-- C9 witness: the dialogue segment of a concrete chapter text resolves to
a known speaker or the narrator. -/
theorem detectDialogue_speakers_witness :
    (⟨"Bob".data, "Hi".data, "dialogue"⟩ : Segment) ∈
      detectDialogue "\"Hi\" Bob said".data [("Bob".data, "v1")] ∧
    ((⟨"Bob".data, "Hi".data, "dialogue"⟩ : Segment).speaker = narratorName ∨
      (⟨"Bob".data, "Hi".data, "dialogue"⟩ : Segment).speaker ∈
        ([("Bob".data, "v1")].map Prod.fst)) :=
  ⟨by decide,
   detectDialogue_speakers "\"Hi\" Bob said".data [("Bob".data, "v1")]
     ⟨"Bob".data, "Hi".data, "dialogue"⟩ (by decide)⟩

/-- C2 amended: the reconstruction property only holds on texts in which
neither attribution regex family matches: there the segmenter emits (at
most) one narration segment and concatenating segment texts reconstructs
the input up to trimmed boundary whitespace (the raw input when it is pure
whitespace).  When a match occurs, the quote characters and the attribution
span are dropped from the concatenation (see the counterexample). -/
theorem segments_reconstruct_no_match (text : List Char)
    (cvMap : List (List Char × String)) (h : allMatches text = []) :
    ((detectDialogue text cvMap).map Segment.text).flatten =
      if pyStrip text = [] then text else pyStrip text := by
  simp only [detectDialogue, h]
  simp only [buildSegments, List.drop_zero]
  rcases hx : text with _ | ⟨c, cs⟩
  · simp [pyStrip]
  · rw [← hx]
    have hlen : 0 < text.length := by rw [hx]; simp
    rw [if_pos hlen]
    by_cases hstrip : pyStrip text = []
    · rw [if_pos hstrip, if_pos hstrip]
      simp
    · rw [if_neg hstrip, if_neg ?ne, if_neg hstrip]
      · simp
      · simp

/-- C2 amended witness: a plain narration text with no attribution match. -/
theorem segments_reconstruct_no_match_witness :
    allMatches "Hello world.".data = [] ∧
    ((detectDialogue "Hello world.".data []).map Segment.text).flatten =
      if pyStrip "Hello world.".data = [] then "Hello world.".data
      else pyStrip "Hello world.".data :=
  ⟨by decide,
   segments_reconstruct_no_match "Hello world.".data [] (by decide)⟩

/-- Members of a `takeWhile` are members of the list. -/
theorem mem_takeWhile_mem {p : Char → Bool} :
    ∀ {l : List Char} {x : Char}, x ∈ l.takeWhile p → x ∈ l := by
  intro l
  induction l with
  | nil => intro x h; cases h
  | cons a t ih =>
    intro x h
    rw [List.takeWhile_cons] at h
    split at h
    · rcases List.mem_cons.mp h with rfl | h'
      · exact List.mem_cons_self _ _
      · exact List.mem_cons_of_mem _ (ih h')
    · cases h

/-- `pySplitF` does not depend on the fuel once it covers the length. -/
theorem pySplitF_irrel :
    ∀ fuel fuel' cs, cs.length ≤ fuel → cs.length ≤ fuel' →
      pySplitF fuel cs = pySplitF fuel' cs := by
  intro fuel
  induction fuel with
  | zero =>
    intro fuel' cs h h'
    have hcs : cs = [] := List.eq_nil_of_length_eq_zero (by omega)
    subst hcs
    cases fuel' <;> rfl
  | succ n ih =>
    intro fuel' cs h h'
    cases fuel' with
    | zero =>
      have hcs : cs = [] := List.eq_nil_of_length_eq_zero (by omega)
      subst hcs
      rfl
    | succ m =>
      cases cs with
      | nil => rfl
      | cons c rest =>
        simp only [pySplitF]
        split
        · exact ih m rest (by simp at h; omega) (by simp at h'; omega)
        · have hd := List.length_drop
            (rest.takeWhile (fun x => !(isPySpace x))).length rest
          exact congrArg _ (ih m _ (by simp at h; omega) (by simp at h'; omega))

/-- One-step unfolding of `pySplit` at a cons cell. -/
theorem pySplit_cons_eq (c : Char) (rest : List Char) :
    pySplit (c :: rest) =
      if isPySpace c then pySplit rest
      else (c :: rest.takeWhile (fun x => !(isPySpace x))) ::
        pySplit (rest.drop (rest.takeWhile (fun x => !(isPySpace x))).length) := by
  show pySplitF (rest.length + 1) (c :: rest) = _
  simp only [pySplitF, pySplit]
  split
  · rfl
  · have hd := List.length_drop
      (rest.takeWhile (fun x => !(isPySpace x))).length rest
    exact congrArg _ (pySplitF_irrel rest.length _ _ (by omega) le_rfl)

/-- The words of `str.split()`: non-empty, whitespace-free, drawn from the
input. -/
theorem pySplit_words :
    ∀ (n : Nat) (cs : List Char), cs.length ≤ n → ∀ w ∈ pySplit cs,
      w ≠ [] ∧ ∀ c ∈ w, isPySpace c = false ∧ c ∈ cs := by
  intro n
  induction n with
  | zero =>
    intro cs hlen w hw
    have : cs = [] := List.eq_nil_of_length_eq_zero (by omega)
    subst this
    simp only [pySplit, List.length_nil, pySplitF] at hw
    cases hw
  | succ n ih =>
    intro cs hlen w hw
    match cs, hw with
    | [], hw => simp only [pySplit, List.length_nil, pySplitF] at hw; cases hw
    | c :: rest, hw =>
      rw [pySplit_cons_eq] at hw
      split at hw
      · obtain ⟨hne, hc⟩ := ih rest (by simp at hlen; omega) w hw
        exact ⟨hne, fun x hx =>
          ⟨(hc x hx).1, List.mem_cons_of_mem c (hc x hx).2⟩⟩
      · rename_i hcsp
        rcases List.mem_cons.mp hw with rfl | hw'
        · refine ⟨by simp, fun x hx => ?_⟩
          rcases List.mem_cons.mp hx with rfl | hx'
          · exact ⟨Bool.of_not_eq_true hcsp, List.mem_cons_self _ _⟩
          · refine ⟨?_, List.mem_cons_of_mem c (mem_takeWhile_mem hx')⟩
            have := List.mem_takeWhile_imp hx'
            simpa using this
        · have hdl : (rest.drop
              (rest.takeWhile (fun x => !(isPySpace x))).length).length ≤ n := by
            have := List.length_drop
              (rest.takeWhile (fun x => !(isPySpace x))).length rest
            simp at hlen
            omega
          obtain ⟨hne, hc⟩ := ih _ hdl w hw'
          refine ⟨hne, fun x hx => ⟨(hc x hx).1, ?_⟩⟩
          exact List.mem_cons_of_mem c
            ((List.drop_sublist _ rest).subset (hc x hx).2)

/-- `str.split()` yields no words exactly when the input is pure
whitespace. -/
theorem pySplit_nil_iff :
    ∀ (n : Nat) (cs : List Char), cs.length ≤ n →
      (pySplit cs = [] ↔ ∀ c ∈ cs, isPySpace c = true) := by
  intro n
  induction n with
  | zero =>
    intro cs hlen
    have : cs = [] := List.eq_nil_of_length_eq_zero (by omega)
    subst this
    simp [pySplit, pySplitF]
  | succ n ih =>
    intro cs hlen
    match cs with
    | [] => simp [pySplit, pySplitF]
    | c :: rest =>
      rw [pySplit_cons_eq]
      split
      · rename_i hcsp
        rw [ih rest (by simp at hlen; omega)]
        simp [hcsp]
      · rename_i hcsp
        constructor
        · intro h
          exact absurd h (List.cons_ne_nil _ _)
        · intro h
          exact absurd (h c (List.mem_cons_self c rest)) (by simpa using hcsp)

/-- `str.strip()` yields the empty string exactly when the input is pure
whitespace. -/
theorem pyStrip_nil_iff (l : List Char) :
    pyStrip l = [] ↔ ∀ c ∈ l, isPySpace c = true := by
  unfold pyStrip
  rw [List.reverse_eq_nil_iff, List.dropWhile_eq_nil_iff]
  constructor
  · intro h c hc
    by_cases hsp : isPySpace c = true
    · exact hsp
    · exfalso
      have hcd : c ∈ l.dropWhile isPySpace := by
        have hsplit := List.takeWhile_append_dropWhile isPySpace l
        rw [← hsplit] at hc
        rcases List.mem_append.mp hc with h1 | h2
        · exact absurd (List.mem_takeWhile_imp h1) hsp
        · exact h2
      exact hsp (h c (List.mem_reverse.mpr hcd))
  · intro h c hc
    exact h c ((List.dropWhile_sublist _).subset (List.mem_reverse.mp hc))

/-- A whitespace-free character is not a space. -/
theorem ne_space_of_nonspace {c : Char} (h : isPySpace c = false) : c ≠ ' ' := by
  rintro rfl
  simp [isPySpace] at h

/-- A space-free list has no two adjacent spaces. -/
theorem chain'_no_space :
    ∀ l : List Char, (∀ c ∈ l, c ≠ ' ') →
      List.Chain' (fun a b => ¬(a = ' ' ∧ b = ' ')) l := by
  intro l
  induction l with
  | nil => intro _; exact List.chain'_nil
  | cons a t ih =>
    intro h
    cases t with
    | nil => exact List.chain'_singleton a
    | cons b t' =>
      rw [List.chain'_cons]
      refine ⟨fun hab => h a (List.mem_cons_self _ _) hab.1, ?_⟩
      exact ih (fun c hc => h c (List.mem_cons_of_mem a hc))

/-- `sep.join` on two or more words. -/
theorem intercalate_cons2 (s a b : List Char) (t : List (List Char)) :
    List.intercalate s (a :: b :: t) = a ++ (s ++ List.intercalate s (b :: t)) := by
  simp [List.intercalate, List.intersperse_cons_cons]

/-- `sep.join` on one word. -/
theorem intercalate_single (s a : List Char) : List.intercalate s [a] = a := by
  simp [List.intercalate]

/-- `' '.join` of a non-empty word list is non-empty. -/
theorem intercalate_ne_nil (s a : List Char) (t : List (List Char))
    (ha : a ≠ []) : List.intercalate s (a :: t) ≠ [] := by
  cases t with
  | nil => rw [intercalate_single]; exact ha
  | cons b t' =>
    rw [intercalate_cons2]
    intro h
    exact ha (List.append_eq_nil.mp h).1

/-- Structure of `' '.join(words)` for non-empty whitespace-free words:
every character is a single separator space or a word character, no two
spaces are adjacent, and the result neither starts nor ends with
whitespace. -/
theorem intercalate_space_props :
    ∀ ws : List (List Char),
      (∀ w ∈ ws, w ≠ [] ∧ ∀ c ∈ w, isPySpace c = false) →
      (∀ c ∈ List.intercalate [' '] ws, c = ' ' ∨ ∃ w ∈ ws, c ∈ w) ∧
      List.Chain' (fun a b => ¬(a = ' ' ∧ b = ' '))
        (List.intercalate [' '] ws) ∧
      (∀ c ∈ (List.intercalate [' '] ws).head?, isPySpace c = false) ∧
      (∀ c ∈ (List.intercalate [' '] ws).getLast?, isPySpace c = false) := by
  intro ws
  induction ws with
  | nil =>
    intro _
    refine ⟨?_, ?_, ?_, ?_⟩ <;> simp [List.intercalate]
  | cons w ws ih =>
    intro h
    obtain ⟨hwne, hwch⟩ := h w (List.mem_cons_self _ _)
    cases ws with
    | nil =>
      rw [intercalate_single]
      refine ⟨fun c hc => Or.inr ⟨w, by simp, hc⟩, ?_, ?_, ?_⟩
      · exact chain'_no_space w
          (fun c hc => ne_space_of_nonspace (hwch c hc))
      · intro c hc
        exact hwch c (List.mem_of_mem_head? hc)
      · intro c hc
        exact hwch c (List.mem_of_mem_getLast? hc)
    | cons w2 ws2 =>
      obtain ⟨ihmem, ihchain, ihhead, ihlast⟩ :=
        ih (fun x hx => h x (List.mem_cons_of_mem w hx))
      have hw2ne : w2 ≠ [] := (h w2 (by simp)).1
      have hXne : List.intercalate [' '] (w2 :: ws2) ≠ [] :=
        intercalate_ne_nil [' '] w2 ws2 hw2ne
      rw [intercalate_cons2]
      refine ⟨?_, ?_, ?_, ?_⟩
      · intro c hc
        rcases List.mem_append.mp hc with h1 | h2
        · exact Or.inr ⟨w, by simp, h1⟩
        · rcases List.mem_append.mp h2 with h3 | h4
          · exact Or.inl (List.mem_singleton.mp h3)
          · rcases ihmem c h4 with h5 | ⟨w', hw', hc'⟩
            · exact Or.inl h5
            · exact Or.inr ⟨w', List.mem_cons_of_mem w hw', hc'⟩
      · rw [List.chain'_append]
        refine ⟨chain'_no_space w
          (fun c hc => ne_space_of_nonspace (hwch c hc)), ?_, ?_⟩
        · rw [List.chain'_append]
          refine ⟨List.chain'_singleton _, ihchain, ?_⟩
          intro x hx y hy
          intro hxy
          exact ne_space_of_nonspace (ihhead y hy) hxy.2
        · intro x hx y hy
          intro hxy
          exact ne_space_of_nonspace
            (hwch x (List.mem_of_mem_getLast? hx)) hxy.1
      · intro c hc
        match w, hwne with
        | a :: w', _ =>
          simp only [List.cons_append, List.head?_cons, Option.mem_def,
            Option.some.injEq] at hc
          subst hc
          exact hwch a (List.mem_cons_self _ _)
      · intro c hc
        rw [List.getLast?_append, List.getLast?_append] at hc
        have hd := List.getLast?_eq_getLast_of_ne_nil hXne
        rw [hd] at hc
        simp only [Option.or_some, Option.mem_def, Option.some.injEq] at hc
        subst hc
        exact ihlast _ (by rw [hd]; rfl)

/-- C8: the pre-dispatch normalization of `generate_simple` truncates the
text to `max_chunk_size`, strips NUL and U+FFFD, collapses whitespace runs
to single separator spaces (trimming the boundary), and raises exactly when
the cleaned text is empty — i.e. exactly when the truncated text contains
nothing but NUL, U+FFFD and whitespace.  The cleaned text is non-empty,
free of NUL/U+FFFD, uses `' '` as its only whitespace, has no two adjacent
spaces, neither starts nor ends with a space, and consists of separator
spaces and characters of the truncated input.  The normalization is the
unconditional head of `generate_simple`, so it runs on every call. -/
theorem generate_simple_normalization (maxChunkSize : Nat) (text : List Char) :
    (cleanText maxChunkSize text = Except.error () ↔
      ∀ c ∈ text.take maxChunkSize,
        c = Char.ofNat 0 ∨ c = Char.ofNat 0xFFFD ∨ isPySpace c = true) ∧
    (∀ t, cleanText maxChunkSize text = Except.ok t →
      t ≠ [] ∧
      (∀ c ∈ t, ¬(c = Char.ofNat 0 ∨ c = Char.ofNat 0xFFFD)) ∧
      (∀ c ∈ t, isPySpace c = true → c = ' ') ∧
      List.Chain' (fun a b => ¬(a = ' ' ∧ b = ' ')) t ∧
      (∀ c ∈ t.head?, c ≠ ' ') ∧ (∀ c ∈ t.getLast?, c ≠ ' ') ∧
      (∀ c ∈ t, c = ' ' ∨ c ∈ text.take maxChunkSize)) := by
  have ht1 : (if maxChunkSize < text.length then text.take maxChunkSize
      else text) = text.take maxChunkSize := by
    split
    · rfl
    · rename_i hle
      exact (List.take_of_length_le (by omega)).symm
  simp only [cleanText, ht1]
  set t2 := (text.take maxChunkSize).filter
    (fun c => !(c == Char.ofNat 0 || c == Char.ofNat 0xFFFD)) with ht2
  set t3 := List.intercalate [' '] (pySplit t2) with ht3
  have hwords := pySplit_words t2.length t2 le_rfl
  obtain ⟨hmem, hchain, hhead, hlast⟩ := intercalate_space_props (pySplit t2)
    (fun w hw => ⟨(hwords w hw).1, fun c hc => ((hwords w hw).2 c hc).1⟩)
  have hkey : pyStrip t3 = [] ↔ ∀ c ∈ t2, isPySpace c = true := by
    constructor
    · intro hnil
      rw [← pySplit_nil_iff t2.length t2 le_rfl]
      by_contra hne
      match hsp : pySplit t2, hne with
      | w :: ws, hne =>
        obtain ⟨hwne, hwch⟩ := hwords w (by rw [hsp]; simp)
        obtain ⟨c0, w', rfl⟩ := List.exists_cons_of_ne_nil hwne
        have hct3 : c0 ∈ t3 := by
          rw [ht3, hsp]
          cases ws with
          | nil => rw [intercalate_single]; simp
          | cons b t' => rw [intercalate_cons2]; simp
        have hsp0 := (pyStrip_nil_iff t3).mp hnil c0 hct3
        have hns := (hwch c0 (by simp)).1
        rw [hsp0] at hns
        cases hns
    · intro hall
      have hnil : pySplit t2 = [] :=
        (pySplit_nil_iff t2.length t2 le_rfl).mpr hall
      rw [ht3, hnil]
      simp [List.intercalate, pyStrip]
  have hchar : (∀ c ∈ t2, isPySpace c = true) ↔
      (∀ c ∈ text.take maxChunkSize,
        c = Char.ofNat 0 ∨ c = Char.ofNat 0xFFFD ∨ isPySpace c = true) := by
    constructor
    · intro h2 c hc
      by_cases hnul : c = Char.ofNat 0
      · exact Or.inl hnul
      by_cases hrc : c = Char.ofNat 0xFFFD
      · exact Or.inr (Or.inl hrc)
      refine Or.inr (Or.inr (h2 c ?_))
      rw [ht2]
      refine List.mem_filter.mpr ⟨hc, ?_⟩
      simp [hnul, hrc]
    · intro hr c hc
      rw [ht2] at hc
      obtain ⟨hmem2, hkeep⟩ := List.mem_filter.mp hc
      rcases hr c hmem2 with h1 | h2 | h3
      · rw [h1] at hkeep
        simp at hkeep
      · rw [h2] at hkeep
        simp at hkeep
      · exact h3
  constructor
  · constructor
    · intro herr
      rw [← hchar, ← hkey]
      by_contra hx
      rw [if_neg hx] at herr
      cases herr
    · intro hr
      rw [if_pos (hkey.mpr (hchar.mpr hr))]
  · intro t hok
    have hx : ¬ (pyStrip t3 = []) := by
      intro hx
      rw [if_pos hx] at hok
      cases hok
    rw [if_neg hx] at hok
    injection hok with hok
    subst hok
    have hmemchar : ∀ c ∈ t3, c = ' ' ∨ c ∈ t2 := by
      intro c hc
      rcases hmem c hc with h1 | ⟨w, hw, hcw⟩
      · exact Or.inl h1
      · exact Or.inr ((hwords w hw).2 c hcw).2
    refine ⟨?_, ?_, ?_, hchain, ?_, ?_, ?_⟩
    · intro hnil
      rw [hnil] at hx
      exact hx (by simp [pyStrip])
    · intro c hc
      rcases hmemchar c hc with rfl | h2
      · intro hcon
        rcases hcon with h | h <;> cases h
      · rw [ht2] at h2
        have hkeep := (List.mem_filter.mp h2).2
        intro hcon
        rcases hcon with h | h <;> rw [h] at hkeep <;> simp at hkeep
    · intro c hc hsp
      rcases hmem c hc with h1 | ⟨w, hw, hcw⟩
      · exact h1
      · exfalso
        have hns := ((hwords w hw).2 c hcw).1
        rw [hsp] at hns
        cases hns
    · intro c hc
      exact ne_space_of_nonspace (hhead c hc)
    · intro c hc
      exact ne_space_of_nonspace (hlast c hc)
    · intro c hc
      rcases hmemchar c hc with rfl | h2
      · exact Or.inl rfl
      · rw [ht2] at h2
        exact Or.inr (List.mem_filter.mp h2).1

/-- C8 witness: the text `" a \t b "` cleans to `"a b"` with all the stated
properties. -/
theorem generate_simple_normalization_witness :
    cleanText 5000 " a \t b ".data = Except.ok ['a', ' ', 'b'] ∧
    (['a', ' ', 'b'] ≠ [] ∧
     (∀ c ∈ ['a', ' ', 'b'], ¬(c = Char.ofNat 0 ∨ c = Char.ofNat 0xFFFD)) ∧
     (∀ c ∈ ['a', ' ', 'b'], isPySpace c = true → c = ' ') ∧
     List.Chain' (fun a b => ¬(a = ' ' ∧ b = ' ')) ['a', ' ', 'b'] ∧
     (∀ c ∈ (['a', ' ', 'b'] : List Char).head?, c ≠ ' ') ∧
     (∀ c ∈ (['a', ' ', 'b'] : List Char).getLast?, c ≠ ' ') ∧
     (∀ c ∈ ['a', ' ', 'b'], c = ' ' ∨ c ∈ " a \t b ".data.take 5000)) :=
  ⟨rfl,
   (generate_simple_normalization 5000 " a \t b ".data).2
     ['a', ' ', 'b'] rfl⟩

/-- Keys after a dict assignment. -/
theorem dinsert_keys_mem :
    ∀ (m : List (String × Assignment)) (k : String) (v : Assignment) (a : String),
      a ∈ (dinsert m k v).map Prod.fst ↔ a ∈ m.map Prod.fst ∨ a = k := by
  intro m k v a
  induction m with
  | nil => simp [dinsert]
  | cons p rest ih =>
    obtain ⟨k', v'⟩ := p
    simp only [dinsert]
    split
    · rename_i he
      subst he
      simp
      tauto
    · simp only [List.map_cons, List.mem_cons, ih]
      tauto

/-- Dict assignment preserves key uniqueness. -/
theorem dinsert_keys_nodup :
    ∀ (m : List (String × Assignment)) (k : String) (v : Assignment),
      (m.map Prod.fst).Nodup → ((dinsert m k v).map Prod.fst).Nodup := by
  intro m k v
  induction m with
  | nil => intro _; simp [dinsert]
  | cons p rest ih =>
    obtain ⟨k', v'⟩ := p
    intro hnd
    simp only [List.map_cons, List.nodup_cons] at hnd
    simp only [dinsert]
    split
    · rename_i he
      subst he
      simp only [List.map_cons, List.nodup_cons]
      exact hnd
    · rename_i he
      simp only [List.map_cons, List.nodup_cons]
      refine ⟨fun hmem => ?_, ih hnd.2⟩
      rcases (dinsert_keys_mem rest k v k').mp hmem with h1 | h1
      · exact hnd.1 h1
      · exact he h1

/-- Dict assignment does not change other keys' lookups. -/
theorem dlookup_dinsert_ne :
    ∀ (m : List (String × Assignment)) (k : String) (v : Assignment)
      (a : String), a ≠ k → dlookup a (dinsert m k v) = dlookup a m := by
  intro m k v a hne
  induction m with
  | nil =>
    simp only [dinsert, dlookup]
    rw [if_neg (fun h => hne h.symm)]
  | cons p rest ih =>
    obtain ⟨k', v'⟩ := p
    simp only [dinsert]
    split
    · rename_i he
      subst he
      simp only [dlookup]
      rw [if_neg (fun h => hne h.symm), if_neg (fun h => hne h.symm)]
    · simp only [dlookup]
      split
      · rfl
      · exact ih

/-- Entries after a dict assignment. -/
theorem dinsert_mem :
    ∀ (m : List (String × Assignment)) (k : String) (v : Assignment) p,
      p ∈ dinsert m k v → p ∈ m ∨ p = (k, v) := by
  intro m k v p
  induction m with
  | nil => simp [dinsert]
  | cons q rest ih =>
    obtain ⟨k', v'⟩ := q
    simp only [dinsert]
    split
    · intro h
      rcases List.mem_cons.mp h with rfl | h1
      · exact Or.inr rfl
      · exact Or.inl (List.mem_cons_of_mem _ h1)
    · intro h
      rcases List.mem_cons.mp h with rfl | h1
      · exact Or.inl (List.mem_cons_self _ _)
      · rcases ih h1 with h2 | h2
        · exact Or.inl (List.mem_cons_of_mem _ h2)
        · exact Or.inr h2

/-- A successful lookup is an entry. -/
theorem dlookup_mem :
    ∀ (m : List (String × Assignment)) (a : String) (x : Assignment),
      dlookup a m = some x → (a, x) ∈ m := by
  intro m a x
  induction m with
  | nil => intro h; cases h
  | cons p rest ih =>
    obtain ⟨k', v'⟩ := p
    simp only [dlookup]
    split
    · rename_i he
      subst he
      intro h
      injection h with h
      subst h
      exact List.mem_cons_self _ _
    · intro h
      exact List.mem_cons_of_mem _ (ih h)

/-- With unique keys an association list is a partial function. -/
theorem keys_nodup_eq {α : Type} :
    ∀ (m : List (String × α)) (a : String) (x y : α),
      (m.map Prod.fst).Nodup → (a, x) ∈ m → (a, y) ∈ m → x = y := by
  intro m a x y
  induction m with
  | nil => intro _ h; cases h
  | cons p rest ih =>
    obtain ⟨k', v'⟩ := p
    intro hnd hx hy
    simp only [List.map_cons, List.nodup_cons] at hnd
    rcases List.mem_cons.mp hx with h1 | h1 <;>
      rcases List.mem_cons.mp hy with h2 | h2
    · cases h1
      injection h2 with h2a h2y
      exact h2y.symm
    · cases h1
      exact absurd (List.mem_map_of_mem Prod.fst h2) hnd.1
    · cases h2
      exact absurd (List.mem_map_of_mem Prod.fst h1) hnd.1
    · exact ih hnd.2 h1 h2

/-- The supporting loop does not change lookups of absent keys. -/
theorem assignSupporting_lookup_notmem (mv : List String) :
    ∀ (sup : List (String × CharData)) (i : Nat)
      (acc : List (String × Assignment)) (a : String),
      a ∉ sup.map Prod.fst →
      dlookup a (assignSupporting mv sup i acc) = dlookup a acc := by
  intro sup
  induction sup with
  | nil => intro i acc a _; rfl
  | cons p rest ih =>
    obtain ⟨name, d⟩ := p
    intro i acc a ha
    simp only [List.map_cons, List.mem_cons, not_or] at ha
    simp only [assignSupporting]
    rw [ih (i + 1) _ a ha.2, dlookup_dinsert_ne _ _ _ _ ha.1]

/-- Keys after the supporting loop. -/
theorem assignSupporting_keys_mem (mv : List String) :
    ∀ (sup : List (String × CharData)) (i : Nat)
      (acc : List (String × Assignment)) (a : String),
      a ∈ (assignSupporting mv sup i acc).map Prod.fst ↔
        a ∈ acc.map Prod.fst ∨ a ∈ sup.map Prod.fst := by
  intro sup
  induction sup with
  | nil => intro i acc a; simp [assignSupporting]
  | cons p rest ih =>
    obtain ⟨name, d⟩ := p
    intro i acc a
    simp only [assignSupporting, ih, dinsert_keys_mem]
    simp
    tauto

/-- The supporting loop preserves key uniqueness. -/
theorem assignSupporting_keys_nodup (mv : List String) :
    ∀ (sup : List (String × CharData)) (i : Nat)
      (acc : List (String × Assignment)),
      (acc.map Prod.fst).Nodup →
      ((assignSupporting mv sup i acc).map Prod.fst).Nodup := by
  intro sup
  induction sup with
  | nil => intro i acc h; exact h
  | cons p rest ih =>
    obtain ⟨name, d⟩ := p
    intro i acc h
    exact ih (i + 1) _ (dinsert_keys_nodup _ _ _ h)

/-- Every entry after the supporting loop is an original entry or carries a
voice id from the cycled list (or the narrator default). -/
theorem assignSupporting_mem (mv : List String) :
    ∀ (sup : List (String × CharData)) (i : Nat)
      (acc : List (String × Assignment)) p,
      p ∈ assignSupporting mv sup i acc →
      p ∈ acc ∨ p.2.voice_id ∈ mv ∨ p.2.voice_id = narratorVoiceId := by
  intro sup
  induction sup with
  | nil => intro i acc p h; exact Or.inl h
  | cons q rest ih =>
    obtain ⟨name, d⟩ := q
    intro i acc p h
    rcases ih (i + 1) _ p h with h1 | h1
    · rcases dinsert_mem _ _ _ p h1 with h2 | h2
      · exact Or.inl h2
      · subst h2
        rcases hg : mv[i % mv.length]? with _ | x
        · refine Or.inr (Or.inr ?_)
          simp [List.getD_eq_getElem?_getD, hg]
        · refine Or.inr (Or.inl ?_)
          simp only [List.getD_eq_getElem?_getD, hg, Option.getD_some]
          exact List.getElem?_mem hg
    · exact Or.inr h1

/-- The candidate pool is the male pool exactly for gender `"male"`, and the
female pool for every other gender value. -/
theorem candidatesFor_eq (g : String) :
    candidatesFor g = if g = "male" then voicesByGender "male"
      else voicesByGender "female" := by
  unfold candidatesFor
  by_cases h : g = "male"
  · rw [if_pos h, if_pos h]
  · rw [if_neg h, if_neg h]
    split <;> rfl

/-- Pool voices come from the catalog. -/
theorem candidatesFor_subset (g : String) (v : Voice)
    (h : v ∈ candidatesFor g) : v ∈ AVAILABLE_VOICES := by
  rw [candidatesFor_eq] at h
  split at h <;> exact List.mem_of_mem_filter h

/-- The narrator voice id is a catalog id. -/
theorem narrator_in_catalog :
    narratorVoiceId ∈ AVAILABLE_VOICES.map Voice.vid := by decide

/-- The two gender pools have disjoint voice ids. -/
theorem pools_vid_disjoint :
    ∀ v ∈ voicesByGender "male", ∀ w ∈ voicesByGender "female",
      ¬ v.vid = w.vid := by decide

/-- The male pool ids are duplicate-free. -/
theorem male_vids_nodup : ((voicesByGender "male").map Voice.vid).Nodup := by
  decide

/-- The female pool ids are duplicate-free. -/
theorem female_vids_nodup :
    ((voicesByGender "female").map Voice.vid).Nodup := by decide

/-- Removing one present voice id from a duplicate-free list shortens it by
exactly one. -/
theorem length_filter_erase :
    ∀ (l : List Voice) (v : Voice), (l.map Voice.vid).Nodup → v ∈ l →
      (l.filter (fun w => !(w.vid == v.vid))).length + 1 = l.length := by
  intro l v
  induction l with
  | nil => intro _ h; cases h
  | cons x t ih =>
    intro hnd hv
    simp only [List.map_cons, List.nodup_cons] at hnd
    by_cases hx : x.vid = v.vid
    · rw [List.filter_cons_of_neg (by simp [hx])]
      have ht : t.filter (fun w => !(w.vid == v.vid)) = t := by
        rw [List.filter_eq_self]
        intro w hw
        have hwx : w.vid ≠ v.vid := by
          intro he
          apply hnd.1
          rw [hx, ← he]
          exact List.mem_map_of_mem Voice.vid hw
        simp [hwx]
      rw [ht]
      simp
    · have hvt : v ∈ t := by
        rcases List.mem_cons.mp hv with rfl | h
        · exact absurd rfl hx
        · exact h
      rw [List.filter_cons_of_pos (by simp [hx])]
      have := ih hnd.2 hvt
      simp only [List.length_cons]
      omega

/-- Marking one more voice as used shrinks its own pool's unused count by
exactly one. -/
theorem filter_used_append_mem (pool : List Voice) (used : List String)
    (v : Voice) (hnd : (pool.map Voice.vid).Nodup)
    (hv : v ∈ pool.filter (fun w => !(used.contains w.vid))) :
    (pool.filter (fun w => !((used ++ [v.vid]).contains w.vid))).length + 1 =
      (pool.filter (fun w => !(used.contains w.vid))).length := by
  have h1 : pool.filter (fun w => !((used ++ [v.vid]).contains w.vid)) =
      (pool.filter (fun w => !(used.contains w.vid))).filter
        (fun w => !(w.vid == v.vid)) := by
    rw [List.filter_filter]
    apply List.filter_congr
    intro w hw
    simp [List.mem_append, Bool.not_or, Bool.and_comm, beq_eq_decide]
    congr 2
    exact decide_eq_decide.mpr Iff.rfl
  rw [h1]
  apply length_filter_erase
  · exact List.Nodup.sublist
      (List.Sublist.map Voice.vid (List.filter_sublist pool)) hnd
  · exact hv

/-- Marking a voice of the other pool as used leaves a pool's unused set
unchanged. -/
theorem filter_used_append_disjoint (pool : List Voice) (used : List String)
    (vid : String) (hdisj : ∀ w ∈ pool, ¬ w.vid = vid) :
    pool.filter (fun w => !((used ++ [vid]).contains w.vid)) =
      pool.filter (fun w => !(used.contains w.vid)) := by
  apply List.filter_congr
  intro w hw
  simp [List.mem_append, hdisj w hw]

/-- The main-character loop emits exactly the main characters' names, in
order. -/
theorem assignMains_keys :
    ∀ (mains : List (String × CharData)) (used : List String),
      (assignMains mains used).1.map Prod.fst = mains.map Prod.fst := by
  intro mains
  induction mains with
  | nil => intro used; rfl
  | cons p rest ih =>
    obtain ⟨name, d⟩ := p
    intro used
    simp only [assignMains]
    split
    · simp [ih]
    · split
      · simp [ih]
      · simp [ih]

/-- Voice ids given out by the main loop are catalog ids, and the updated
used set only grows by catalog ids. -/
theorem assignMains_vids :
    ∀ (mains : List (String × CharData)) (used : List String),
      (∀ p ∈ (assignMains mains used).1,
        p.2.voice_id ∈ AVAILABLE_VOICES.map Voice.vid) ∧
      (∀ u ∈ (assignMains mains used).2,
        u ∈ used ∨ u ∈ AVAILABLE_VOICES.map Voice.vid) := by
  intro mains
  induction mains with
  | nil =>
    intro used
    exact ⟨by simp [assignMains], fun u hu => Or.inl hu⟩
  | cons p rest ih =>
    obtain ⟨name, d⟩ := p
    intro used
    simp only [assignMains]
    split
    · rename_i v vs hav
      have hvcat : v.vid ∈ AVAILABLE_VOICES.map Voice.vid := by
        refine List.mem_map_of_mem Voice.vid (candidatesFor_subset d.gender v ?_)
        exact List.mem_of_mem_filter (hav ▸ List.mem_cons_self v vs)
      constructor
      · intro q hq
        rcases List.mem_cons.mp hq with rfl | hq'
        · exact hvcat
        · exact (ih (used ++ [v.vid])).1 q hq'
      · intro u hu
        rcases (ih (used ++ [v.vid])).2 u hu with h1 | h1
        · rcases List.mem_append.mp h1 with h2 | h2
          · exact Or.inl h2
          · rcases List.mem_singleton.mp h2 with rfl
            exact Or.inr hvcat
        · exact Or.inr h1
    · split
      · rename_i c cs hcand
        have hccat : c.vid ∈ AVAILABLE_VOICES.map Voice.vid := by
          refine List.mem_map_of_mem Voice.vid
            (candidatesFor_subset d.gender c ?_)
          exact hcand ▸ List.mem_cons_self c cs
        constructor
        · intro q hq
          rcases List.mem_cons.mp hq with rfl | hq'
          · exact hccat
          · exact (ih used).1 q hq'
        · exact (ih used).2
      · constructor
        · intro q hq
          rcases List.mem_cons.mp hq with rfl | hq'
          · exact narrator_in_catalog
          · exact (ih used).1 q hq'
        · exact (ih used).2

/-- Core of the variety guarantee: as long as each effective-gender group of
main characters fits into its unused pool, the main loop hands out pairwise
distinct, previously unused voice ids. -/
theorem assignMains_distinct :
    ∀ (mains : List (String × CharData)) (used : List String),
      (mains.filter (fun p => p.2.gender == "male")).length ≤
        ((voicesByGender "male").filter
          (fun v => !(used.contains v.vid))).length →
      (mains.filter (fun p => !(p.2.gender == "male"))).length ≤
        ((voicesByGender "female").filter
          (fun v => !(used.contains v.vid))).length →
      ((assignMains mains used).1.map (fun p => p.2.voice_id)).Nodup ∧
      (∀ p ∈ (assignMains mains used).1, p.2.voice_id ∉ used) := by
  intro mains
  induction mains with
  | nil =>
    intro used _ _
    exact ⟨by simp [assignMains], by simp [assignMains]⟩
  | cons hd rest ih =>
    obtain ⟨name, d⟩ := hd
    intro used hM hF
    by_cases hg : d.gender = "male"
    · have hcand : candidatesFor d.gender = voicesByGender "male" := by
        rw [candidatesFor_eq, if_pos hg]
      have hMc : (((name, d) :: rest).filter
          (fun p => p.2.gender == "male")).length =
          (rest.filter (fun p => p.2.gender == "male")).length + 1 := by
        rw [List.filter_cons_of_pos (by simp [hg])]
        simp
      have hFc : (((name, d) :: rest).filter
          (fun p => !(p.2.gender == "male"))).length =
          (rest.filter (fun p => !(p.2.gender == "male"))).length := by
        rw [List.filter_cons_of_neg (by simp [hg])]
      simp only [assignMains]
      split
      · rename_i v vs hav
        rw [hcand] at hav
        have hvfil : v ∈ (voicesByGender "male").filter
            (fun w => !(used.contains w.vid)) :=
          hav ▸ List.mem_cons_self v vs
        have hvnu : v.vid ∉ used := by
          have := (List.mem_filter.mp hvfil).2
          simpa using this
        have hshrink := filter_used_append_mem (voicesByGender "male") used v
          male_vids_nodup hvfil
        have hsame := filter_used_append_disjoint (voicesByGender "female")
          used v.vid
          (fun w hw he => pools_vid_disjoint v
            (List.mem_of_mem_filter hvfil) w hw he.symm)
        obtain ⟨ihnd, ihus⟩ := ih (used ++ [v.vid])
          (by rw [hMc] at hM; omega)
          (by rw [hFc] at hF; rw [hsame]; exact hF)
        constructor
        · simp only [List.map_cons, List.nodup_cons]
          refine ⟨fun hmem => ?_, ihnd⟩
          obtain ⟨q, hq, hveq⟩ := List.mem_map.mp hmem
          apply ihus q hq
          rw [hveq]
          exact List.mem_append_right _ (List.mem_singleton.mpr rfl)
        · intro q hq
          rcases List.mem_cons.mp hq with rfl | hq'
          · exact hvnu
          · intro hu
            exact ihus q hq' (List.mem_append_left _ hu)
      · rename_i hav
        exfalso
        rw [hcand] at hav
        have : ((voicesByGender "male").filter
            (fun w => !(used.contains w.vid))).length = 0 := by
          rw [hav]
          rfl
        rw [hMc] at hM
        omega
    · have hcand : candidatesFor d.gender = voicesByGender "female" := by
        rw [candidatesFor_eq, if_neg hg]
      have hMc : (((name, d) :: rest).filter
          (fun p => p.2.gender == "male")).length =
          (rest.filter (fun p => p.2.gender == "male")).length := by
        rw [List.filter_cons_of_neg (by simp [hg])]
      have hFc : (((name, d) :: rest).filter
          (fun p => !(p.2.gender == "male"))).length =
          (rest.filter (fun p => !(p.2.gender == "male"))).length + 1 := by
        rw [List.filter_cons_of_pos (by simp [hg])]
        simp
      simp only [assignMains]
      split
      · rename_i v vs hav
        rw [hcand] at hav
        have hvfil : v ∈ (voicesByGender "female").filter
            (fun w => !(used.contains w.vid)) :=
          hav ▸ List.mem_cons_self v vs
        have hvnu : v.vid ∉ used := by
          have := (List.mem_filter.mp hvfil).2
          simpa using this
        have hshrink := filter_used_append_mem (voicesByGender "female") used v
          female_vids_nodup hvfil
        have hsame := filter_used_append_disjoint (voicesByGender "male")
          used v.vid
          (fun w hw => pools_vid_disjoint w hw v
            (List.mem_of_mem_filter hvfil))
        obtain ⟨ihnd, ihus⟩ := ih (used ++ [v.vid])
          (by rw [hMc] at hM; rw [hsame]; exact hM)
          (by rw [hFc] at hF; omega)
        constructor
        · simp only [List.map_cons, List.nodup_cons]
          refine ⟨fun hmem => ?_, ihnd⟩
          obtain ⟨q, hq, hveq⟩ := List.mem_map.mp hmem
          apply ihus q hq
          rw [hveq]
          exact List.mem_append_right _ (List.mem_singleton.mpr rfl)
        · intro q hq
          rcases List.mem_cons.mp hq with rfl | hq'
          · exact hvnu
          · intro hu
            exact ihus q hq' (List.mem_append_left _ hu)
      · rename_i hav
        exfalso
        rw [hcand] at hav
        have : ((voicesByGender "female").filter
            (fun w => !(used.contains w.vid))).length = 0 := by
          rw [hav]
          rfl
        rw [hFc] at hF
        omega

/-- Lookups of main characters (not named `"Narrator"`) in the final
assignment read back the main-loop entry. -/
theorem assignVoices_lookup_main (characters : List (String × CharData))
    (hnd : (characters.map Prod.fst).Nodup) (a : String) (da : CharData)
    (hmem : (a, da) ∈ characters) (hrole : da.role = "main")
    (hane : a ≠ "Narrator") :
    dlookup a (assignVoices characters) =
      dlookup a (assignMains
        (characters.filter (fun p => p.2.role == "main")) []).1 := by
  have hsup : a ∉ (characters.filter
      (fun p => p.2.role == "supporting")).map Prod.fst := by
    intro hin
    obtain ⟨p, hp, hfst⟩ := List.mem_map.mp hin
    obtain ⟨p1, p2⟩ := p
    obtain ⟨hpch, hprole⟩ := List.mem_filter.mp hp
    subst hfst
    have : p2 = da := keys_nodup_eq characters p1 p2 da hnd hpch hmem
    subst this
    rw [hrole] at hprole
    simp at hprole
  simp only [assignVoices]
  rw [assignSupporting_lookup_notmem _ _ _ _ _ hsup]
  split
  · rw [dlookup_dinsert_ne _ _ _ _ hane]
  · rfl

/-- C3 amended: no two distinct characters of role `main` (neither named
`"Narrator"`) receive the same voice id, provided each effective-gender
group of main characters (`unknown` and every non-`male` gender use the
female pool) is no larger than its pool — the source's notion of pool
exhaustion.  Supporting characters, by contrast, deliberately cycle through
the voices already used by main characters (see the counterexample). -/
theorem assignVoices_mains_distinct (characters : List (String × CharData))
    (hnd : (characters.map Prod.fst).Nodup)
    (hMcnt : (((characters.filter (fun p => p.2.role == "main")).filter
        (fun p => p.2.gender == "male"))).length ≤
        (voicesByGender "male").length)
    (hFcnt : (((characters.filter (fun p => p.2.role == "main")).filter
        (fun p => !(p.2.gender == "male")))).length ≤
        (voicesByGender "female").length)
    (a : String) (da : CharData) (b : String) (db : CharData)
    (hma : (a, da) ∈ characters) (hra : da.role = "main")
    (hmb : (b, db) ∈ characters) (hrb : db.role = "main")
    (hane : a ≠ "Narrator") (hbne : b ≠ "Narrator") (hab : a ≠ b)
    (aa ab : Assignment)
    (hla : dlookup a (assignVoices characters) = some aa)
    (hlb : dlookup b (assignVoices characters) = some ab) :
    aa.voice_id ≠ ab.voice_id := by
  rw [assignVoices_lookup_main characters hnd a da hma hra hane] at hla
  rw [assignVoices_lookup_main characters hnd b db hmb hrb hbne] at hlb
  have hea : (a, aa) ∈ (assignMains
      (characters.filter (fun p => p.2.role == "main")) []).1 :=
    dlookup_mem _ a aa hla
  have heb : (b, ab) ∈ (assignMains
      (characters.filter (fun p => p.2.role == "main")) []).1 :=
    dlookup_mem _ b ab hlb
  have hfil : ∀ pool : List Voice,
      pool.filter (fun v => !(([] : List String).contains v.vid)) = pool := by
    intro pool
    apply List.filter_eq_self.mpr
    intro v _
    rfl
  obtain ⟨hndv, _⟩ := assignMains_distinct
    (characters.filter (fun p => p.2.role == "main")) []
    (by rw [hfil]; exact hMcnt) (by rw [hfil]; exact hFcnt)
  intro hveq
  have := List.inj_on_of_nodup_map hndv hea heb hveq
  injection this with h1 _
  exact hab h1

/-- C3 amended witness: two main characters of different genders receive
distinct voices (`am_alex` vs `af_nova`). -/
theorem assignVoices_mains_distinct_witness :
    (⟨"am_alex", "Alex",
      "Assigned default voice for male character"⟩ : Assignment).voice_id ≠
    (⟨"af_nova", "Nova",
      "Assigned neural voice for female character"⟩ : Assignment).voice_id :=
  assignVoices_mains_distinct
    [("Alice", ⟨"male", "main"⟩), ("Carol", ⟨"female", "main"⟩)]
    (by decide) (by decide) (by decide)
    "Alice" ⟨"male", "main"⟩ "Carol" ⟨"female", "main"⟩
    (by decide) rfl (by decide) rfl
    (by decide) (by decide) (by decide)
    ⟨"am_alex", "Alex", "Assigned default voice for male character"⟩
    ⟨"af_nova", "Nova", "Assigned neural voice for female character"⟩
    rfl rfl

/-- Main-character key characterisation. -/
theorem mains_keys_iff (characters : List (String × CharData)) (k : String)
    (role : String) :
    (k ∈ (characters.filter (fun p => p.2.role == role)).map Prod.fst ↔
      ∃ d, (k, d) ∈ characters ∧ d.role = role) := by
  constructor
  · intro h
    obtain ⟨p, hp, hfst⟩ := List.mem_map.mp h
    obtain ⟨hpm, hpr⟩ := List.mem_filter.mp hp
    refine ⟨p.2, ?_, by simpa using hpr⟩
    rw [← hfst]
    exact hpm
  · rintro ⟨d, hd, hrole⟩
    exact List.mem_map.mpr
      ⟨(k, d), List.mem_filter.mpr ⟨hd, by simp [hrole]⟩, rfl⟩

/-- Presence test of the narrator key. -/
theorem narrator_any_iff (characters : List (String × CharData)) :
    (characters.any (fun p => p.1 == "Narrator") = true) ↔
      "Narrator" ∈ characters.map Prod.fst := by
  rw [List.any_eq_true]
  constructor
  · rintro ⟨p, hp, hpe⟩
    have hp1 : p.1 = "Narrator" := by simpa using hpe
    rw [← hp1]
    exact List.mem_map_of_mem _ hp
  · intro h
    obtain ⟨p, hp, hfst⟩ := List.mem_map.mp h
    exact ⟨p, hp, by simp [hfst]⟩

/-- C1 amended: `assign_voices` returns a mapping whose keys are exactly the
characters of role `main` or `supporting` plus `"Narrator"` when it is an
input key — each exactly once — and every assigned voice id is a catalog id.
Characters of any other role (in particular `minor`) receive no entry (see
the counterexample), so the mapping is not total over all roles. -/
theorem assignVoices_coverage (characters : List (String × CharData))
    (hnd : (characters.map Prod.fst).Nodup) :
    ((assignVoices characters).map Prod.fst).Nodup ∧
    (∀ k, k ∈ (assignVoices characters).map Prod.fst ↔
      ((∃ d, (k, d) ∈ characters ∧
          (d.role = "main" ∨ d.role = "supporting")) ∨
       (k = "Narrator" ∧ k ∈ characters.map Prod.fst))) ∧
    (∀ p ∈ assignVoices characters,
      p.2.voice_id ∈ AVAILABLE_VOICES.map Voice.vid) := by
  have houtkeys := assignMains_keys
    (characters.filter (fun p => p.2.role == "main")) []
  have houtnd : ((assignMains
      (characters.filter (fun p => p.2.role == "main")) []).1.map
        Prod.fst).Nodup := by
    rw [houtkeys]
    exact List.Nodup.sublist
      (List.Sublist.map Prod.fst (List.filter_sublist characters)) hnd
  refine ⟨?_, ?_, ?_⟩
  · simp only [assignVoices]
    apply assignSupporting_keys_nodup
    split
    · exact dinsert_keys_nodup _ _ _ houtnd
    · exact houtnd
  · intro k
    simp only [assignVoices]
    rw [assignSupporting_keys_mem]
    constructor
    · intro h
      rcases h with h | h
      · revert h
        split
        · rename_i hany
          intro h
          rcases (dinsert_keys_mem _ _ _ k).mp h with h1 | h1
          · rw [houtkeys] at h1
            obtain ⟨d, hd, hrole⟩ := (mains_keys_iff characters k "main").mp h1
            exact Or.inl ⟨d, hd, Or.inl hrole⟩
          · subst h1
            exact Or.inr ⟨rfl, (narrator_any_iff characters).mp hany⟩
        · intro h
          rw [houtkeys] at h
          obtain ⟨d, hd, hrole⟩ := (mains_keys_iff characters k "main").mp h
          exact Or.inl ⟨d, hd, Or.inl hrole⟩
      · obtain ⟨d, hd, hrole⟩ :=
          (mains_keys_iff characters k "supporting").mp h
        exact Or.inl ⟨d, hd, Or.inr hrole⟩
    · intro h
      rcases h with ⟨d, hd, hrole | hrole⟩ | ⟨hk, hmem⟩
      · left
        split
        · rw [dinsert_keys_mem, houtkeys]
          exact Or.inl ((mains_keys_iff characters k "main").mpr ⟨d, hd, hrole⟩)
        · rw [houtkeys]
          exact (mains_keys_iff characters k "main").mpr ⟨d, hd, hrole⟩
      · right
        exact (mains_keys_iff characters k "supporting").mpr ⟨d, hd, hrole⟩
      · left
        subst hk
        rw [if_pos ((narrator_any_iff characters).mpr hmem)]
        rw [dinsert_keys_mem]
        exact Or.inr rfl
  · intro p hp
    simp only [assignVoices] at hp
    rcases assignSupporting_mem _ _ _ _ p hp with h1 | h1 | h1
    · revert h1
      split
      · intro h1
        rcases dinsert_mem _ _ _ p h1 with h2 | h2
        · exact (assignMains_vids _ []).1 p h2
        · rw [h2]
          exact narrator_in_catalog
      · intro h1
        exact (assignMains_vids _ []).1 p h1
    · revert h1
      split
      · intro h1
        rw [List.mem_singleton.mp h1]
        exact narrator_in_catalog
      · intro h1
        rcases (assignMains_vids _ []).2 _ h1 with h2 | h2
        · cases h2
        · exact h2
    · rw [h1]
      exact narrator_in_catalog

/-- C1 amended witness at a three-character input (main, supporting, and a
narrator entry). -/
theorem assignVoices_coverage_witness :
    (([("Alice", (⟨"female", "main"⟩ : CharData)),
       ("Bob", ⟨"male", "supporting"⟩),
       ("Narrator", ⟨"unknown", "system"⟩)].map Prod.fst).Nodup) ∧
    (((assignVoices [("Alice", ⟨"female", "main"⟩),
        ("Bob", ⟨"male", "supporting"⟩),
        ("Narrator", ⟨"unknown", "system"⟩)]).map Prod.fst).Nodup ∧
     (∀ k, k ∈ (assignVoices [("Alice", ⟨"female", "main"⟩),
        ("Bob", ⟨"male", "supporting"⟩),
        ("Narrator", ⟨"unknown", "system"⟩)]).map Prod.fst ↔
       ((∃ d, (k, d) ∈ [("Alice", (⟨"female", "main"⟩ : CharData)),
            ("Bob", ⟨"male", "supporting"⟩),
            ("Narrator", ⟨"unknown", "system"⟩)] ∧
          (d.role = "main" ∨ d.role = "supporting")) ∨
        (k = "Narrator" ∧ k ∈ [("Alice", (⟨"female", "main"⟩ : CharData)),
            ("Bob", ⟨"male", "supporting"⟩),
            ("Narrator", ⟨"unknown", "system"⟩)].map Prod.fst))) ∧
     (∀ p ∈ assignVoices [("Alice", ⟨"female", "main"⟩),
        ("Bob", ⟨"male", "supporting"⟩),
        ("Narrator", ⟨"unknown", "system"⟩)],
       p.2.voice_id ∈ AVAILABLE_VOICES.map Voice.vid)) :=
  ⟨by decide,
   assignVoices_coverage
     [("Alice", ⟨"female", "main"⟩), ("Bob", ⟨"male", "supporting"⟩),
      ("Narrator", ⟨"unknown", "system"⟩)] (by decide)⟩
